import Mathlib

/-!
Verification of the RCU `MichaelHashSet` facade
(`cds/container/michael_set_rcu.h`).

The facade dispatches every operation to one of `M = 2^k` buckets chosen by
`hash(key) & (M-1)` and maintains an item counter.  The bucket type
(`OrderedList`, e.g. `MichaelList`) and the helper
`michael_set::details::init_hash_bitmask` are collaborators whose code is not
part of this repository snapshot; they are modelled from the specification
(§4.3 ordered list, §6 construction parameters).  The facade functions
themselves are translated directly from the header.

The embedding is sequential: each operation is a function from the set state
to a new state plus the operation result, mirroring the single-threaded
(quiescent) semantics the claims quantify over.
-/

namespace MichaelSetRCU

/-- A value stored in the set: a key and a non-key payload.  The bucket's
`key_comparator` compares keys only; functors may change the payload only. -/
structure Val where
  key : Nat
  payload : Nat
deriving DecidableEq

/-- A bucket: the ordered list used as the hash-bucket implementation. -/
abbrev Bucket := List Val

/-- Modelled from the spec: `OrderedList::insert` (§4.3).  The search walks
nodes with keys `< key(v)`; a node with an equal key rejects the insert
(duplicate), otherwise the new node is linked before the first node with a
larger key.  Returns the new bucket and whether the value was inserted. -/
def bucket_insert (v : Val) : Bucket → Bucket × Bool
  | [] => ([v], true)
  | w :: ws =>
    if w.key < v.key then
      let r := bucket_insert v ws
      (w :: r.1, r.2)
    else if w.key = v.key then (w :: ws, false)
    else (v :: w :: ws, true)

/-- Modelled from the spec: `OrderedList::emplace` constructs a value from its
arguments and inserts it exactly like `insert`. -/
def bucket_emplace (v : Val) : Bucket → Bucket × Bool :=
  bucket_insert v

/-- Modelled from the spec: `OrderedList::find(key)` — ordered search for the
first node whose key is not less than `key`, succeeding iff its key equals
`key`. -/
def bucket_find (k : Nat) : Bucket → Bool
  | [] => false
  | w :: ws => if w.key < k then bucket_find k ws else decide (w.key = k)

/-- Modelled from the spec: `OrderedList::find_with(key, pred)` — the same
search with the external less-predicate `pred` in place of the comparator. -/
def bucket_find_with (pred : Nat → Nat → Bool) (k : Nat) : Bucket → Bool
  | [] => false
  | w :: ws =>
    if pred w.key k then bucket_find_with pred k ws
    else !pred k w.key

/-- Modelled from the spec: `OrderedList::get(key)` — returns a pointer to the
matching node, `nullptr` (here `none`) when no node matches. -/
def bucket_get (k : Nat) : Bucket → Option Val
  | [] => none
  | w :: ws =>
    if w.key < k then bucket_get k ws
    else if w.key = k then some w else none

/-- Modelled from the spec: `OrderedList::get_with(key, pred)`. -/
def bucket_get_with (pred : Nat → Nat → Bool) (k : Nat) : Bucket → Option Val
  | [] => none
  | w :: ws =>
    if pred w.key k then bucket_get_with pred k ws
    else if pred k w.key then none else some w

/-- Modelled from the spec: `OrderedList::erase(key)` (§4.3).  Ordered search;
the node whose key equals `key` is unlinked; returns the new bucket and
whether a node was erased. -/
def bucket_erase (k : Nat) : Bucket → Bucket × Bool
  | [] => ([], false)
  | w :: ws =>
    if w.key < k then
      let r := bucket_erase k ws
      (w :: r.1, r.2)
    else if w.key = k then (ws, true)
    else (w :: ws, false)

/-- Modelled from the spec: `OrderedList::erase_with(key, pred)` — erase by
predicate-equivalence: the search walks nodes with `pred node key`, and the
stopping node is erased iff it is pred-equivalent to `key`. -/
def bucket_erase_with (pred : Nat → Nat → Bool) (k : Nat) : Bucket → Bucket × Bool
  | [] => ([], false)
  | w :: ws =>
    if pred w.key k then
      let r := bucket_erase_with pred k ws
      (w :: r.1, r.2)
    else if pred k w.key then (w :: ws, false)
    else (ws, true)

/-- Modelled from the spec: `OrderedList::extract(key)` (§4.3) — unlink the
matching node and hand it back as an owned pointer (`exempt_ptr`), empty when
no node matches. -/
def bucket_extract (k : Nat) : Bucket → Bucket × Option Val
  | [] => ([], none)
  | w :: ws =>
    if w.key < k then
      let r := bucket_extract k ws
      (w :: r.1, r.2)
    else if w.key = k then (ws, some w)
    else (w :: ws, none)

/-- Modelled from the spec: `OrderedList::extract_with(key, pred)`. -/
def bucket_extract_with (pred : Nat → Nat → Bool) (k : Nat) :
    Bucket → Bucket × Option Val
  | [] => ([], none)
  | w :: ws =>
    if pred w.key k then
      let r := bucket_extract_with pred k ws
      (w :: r.1, r.2)
    else if pred k w.key then (w :: ws, none)
    else (ws, some w)

/-- Modelled from the spec: `OrderedList::ensure(v, f)` (§4.3, §4.4).  When a
node with the key of `v` exists, the functor is applied with `bNew = false`
to the existing node (it may change non-key fields only) and the list reports
`(true, false)`; otherwise a new node is linked in, the functor is applied
with `bNew = true`, and the list reports `(true, true)`. -/
def bucket_ensure (v : Val) (f : Bool → Nat → Nat) : Bucket → Bucket × (Bool × Bool)
  | [] => ([⟨v.key, f true v.payload⟩], (true, true))
  | w :: ws =>
    if w.key < v.key then
      let r := bucket_ensure v f ws
      (w :: r.1, r.2)
    else if w.key = v.key then (⟨w.key, f false w.payload⟩ :: ws, (true, false))
    else (⟨v.key, f true v.payload⟩ :: w :: ws, (true, true))

/-- Modelled from the spec: the single-threaded `OrderedList::clear` empties
the bucket. -/
def bucket_clear : Bucket → Bucket := fun _ => []

/-- State of `MichaelHashSet< cds::urcu::gc<RCU>, OrderedList, Traits >`:
the item counter `m_ItemCounter`, the bucket table `m_Buckets` and the
constant mask `m_nHashBitmask`.  The hash functor `m_HashFunctor` is a pure
stateless collaborator and is passed to each operation as `H`. -/
structure MichaelHashSet where
  m_ItemCounter : Nat
  m_Buckets : List Bucket
  m_nHashBitmask : Nat
deriving DecidableEq

/-- `hash_value(key)`: `m_HashFunctor(key) & m_nHashBitmask`. -/
def hash_value (H : Nat → Nat) (s : MichaelHashSet) (k : Nat) : Nat :=
  H k &&& s.m_nHashBitmask

/-- `bucket(key)`: the bucket `m_Buckets[hash_value(key)]` read. -/
def getBucket (s : MichaelHashSet) (i : Nat) : Bucket :=
  s.m_Buckets.getD i []

/-- Writing back the bucket at index `i`. -/
def setBucket (s : MichaelHashSet) (i : Nat) (b : Bucket) : MichaelHashSet :=
  { s with m_Buckets := s.m_Buckets.set i b }

/-- `bucket_count()`: `m_nHashBitmask + 1`. -/
def bucket_count (s : MichaelHashSet) : Nat :=
  s.m_nHashBitmask + 1

/-- `insert(val)`: delegate to `bucket(val).insert(val)`; `++m_ItemCounter`
on success. -/
def insert (H : Nat → Nat) (s : MichaelHashSet) (v : Val) : MichaelHashSet × Bool :=
  let i := hash_value H s v.key
  let r := bucket_insert v (getBucket s i)
  if r.2 then ({ setBucket s i r.1 with m_ItemCounter := s.m_ItemCounter + 1 }, true)
  else (setBucket s i r.1, false)

/-- `emplace(args...)`: construct the value, delegate to its bucket's
`emplace`; `++m_ItemCounter` on success. -/
def emplace (H : Nat → Nat) (s : MichaelHashSet) (v : Val) : MichaelHashSet × Bool :=
  let i := hash_value H s v.key
  let r := bucket_emplace v (getBucket s i)
  if r.2 then ({ setBucket s i r.1 with m_ItemCounter := s.m_ItemCounter + 1 }, true)
  else (setBucket s i r.1, false)

/-- `ensure(val, func)`: delegate; `++m_ItemCounter` when the bucket reports
`(first && second)`, i.e. a new item was added; return the bucket's pair. -/
def ensure (H : Nat → Nat) (s : MichaelHashSet) (v : Val) (f : Bool → Nat → Nat) :
    MichaelHashSet × (Bool × Bool) :=
  let i := hash_value H s v.key
  let r := bucket_ensure v f (getBucket s i)
  if r.2.1 && r.2.2 then
    ({ setBucket s i r.1 with m_ItemCounter := s.m_ItemCounter + 1 }, r.2)
  else (setBucket s i r.1, r.2)

/-- `erase(key)`: delegate; `--m_ItemCounter` on success. -/
def erase (H : Nat → Nat) (s : MichaelHashSet) (k : Nat) : MichaelHashSet × Bool :=
  let i := hash_value H s k
  let r := bucket_erase k (getBucket s i)
  if r.2 then ({ setBucket s i r.1 with m_ItemCounter := s.m_ItemCounter - 1 }, true)
  else (setBucket s i r.1, false)

/-- `erase_with(key, pred)`: delegate; `--m_ItemCounter` on success. -/
def erase_with (H : Nat → Nat) (s : MichaelHashSet) (pred : Nat → Nat → Bool)
    (k : Nat) : MichaelHashSet × Bool :=
  let i := hash_value H s k
  let r := bucket_erase_with pred k (getBucket s i)
  if r.2 then ({ setBucket s i r.1 with m_ItemCounter := s.m_ItemCounter - 1 }, true)
  else (setBucket s i r.1, false)

/-- `extract(key)`: delegate; `--m_ItemCounter` when the returned pointer is
non-empty. -/
def extract (H : Nat → Nat) (s : MichaelHashSet) (k : Nat) :
    MichaelHashSet × Option Val :=
  let i := hash_value H s k
  let r := bucket_extract k (getBucket s i)
  match r.2 with
  | some v => ({ setBucket s i r.1 with m_ItemCounter := s.m_ItemCounter - 1 }, some v)
  | none => (setBucket s i r.1, none)

/-- `extract_with(key, pred)`: delegate; `--m_ItemCounter` when the returned
pointer is non-empty. -/
def extract_with (H : Nat → Nat) (s : MichaelHashSet) (pred : Nat → Nat → Bool)
    (k : Nat) : MichaelHashSet × Option Val :=
  let i := hash_value H s k
  let r := bucket_extract_with pred k (getBucket s i)
  match r.2 with
  | some v => ({ setBucket s i r.1 with m_ItemCounter := s.m_ItemCounter - 1 }, some v)
  | none => (setBucket s i r.1, none)

/-- `find(key)`: delegate to `bucket(key).find(key)`. -/
def find (H : Nat → Nat) (s : MichaelHashSet) (k : Nat) : Bool :=
  bucket_find k (getBucket s (hash_value H s k))

/-- `find_with(key, pred)`: delegate. -/
def find_with (H : Nat → Nat) (s : MichaelHashSet) (pred : Nat → Nat → Bool)
    (k : Nat) : Bool :=
  bucket_find_with pred k (getBucket s (hash_value H s k))

/-- `get(key)`: delegate to `bucket(key).get(key)`. -/
def get (H : Nat → Nat) (s : MichaelHashSet) (k : Nat) : Option Val :=
  bucket_get k (getBucket s (hash_value H s k))

/-- `get_with(key, pred)`: delegate. -/
def get_with (H : Nat → Nat) (s : MichaelHashSet) (pred : Nat → Nat → Bool)
    (k : Nat) : Option Val :=
  bucket_get_with pred k (getBucket s (hash_value H s k))

/-- `clear()`: `for i in [0, bucket_count()) : m_Buckets[i].clear()`, then
`m_ItemCounter.reset()`. -/
def clear (s : MichaelHashSet) : MichaelHashSet :=
  { s with
    m_Buckets :=
      (List.range (bucket_count s)).foldl
        (fun bs i => bs.set i (bucket_clear (bs.getD i []))) s.m_Buckets
    m_ItemCounter := 0 }

/-- `size()`: read the item counter. -/
def size (s : MichaelHashSet) : Nat :=
  s.m_ItemCounter

/-- `empty()`: `size() == 0`. -/
def empty (s : MichaelHashSet) : Bool :=
  size s == 0

/-- Modelled from the spec: `michael_set::details::init_hash_bitmask` is not
in the snapshot; per §6 the core picks the smallest `M = 2^k` such that
`M * load_factor ≥ expected_max`.  Fuelled doubling search starting at
`M = 1`. -/
def findTableSize (nMaxItemCount nLoadFactor : Nat) : Nat → Nat → Nat
  | M, 0 => M
  | M, fuel + 1 =>
    if nMaxItemCount ≤ M * nLoadFactor then M
    else findTableSize nMaxItemCount nLoadFactor (2 * M) fuel

/-- Modelled from the spec: the bitmask stored by the constructor is
`M - 1` for the chosen table size `M`. -/
def init_hash_bitmask (nMaxItemCount nLoadFactor : Nat) : Nat :=
  findTableSize nMaxItemCount nLoadFactor 1 (nMaxItemCount + 1) - 1

/-- The constructor `MichaelHashSet(nMaxItemCount, nLoadFactor)`:
`m_nHashBitmask = init_hash_bitmask(...)`, a fresh table of `bucket_count()`
empty buckets, counter zero.  The `static_assert` rejecting
`atomicity::empty_item_counter` as the item counter is modelled as a
construction-time failure, with the choice of counter type reflected by the
flag `emptyItemCounter`. -/
def mkMichaelHashSet (emptyItemCounter : Bool) (nMaxItemCount nLoadFactor : Nat) :
    Except String MichaelHashSet :=
  if emptyItemCounter then
    Except.error "atomicity::empty_item_counter is not allowed as a item counter"
  else
    let mask := init_hash_bitmask nMaxItemCount nLoadFactor
    Except.ok
      { m_ItemCounter := 0
        m_Buckets := List.replicate (mask + 1) []
        m_nHashBitmask := mask }

/-- One facade operation, for quantifying over operation sequences. -/
inductive Op where
  | insert (v : Val)
  | emplace (v : Val)
  | ensure (v : Val) (f : Bool → Nat → Nat)
  | erase (k : Nat)
  | erase_with (pred : Nat → Nat → Bool) (k : Nat)
  | extract (k : Nat)
  | extract_with (pred : Nat → Nat → Bool) (k : Nat)
  | clear
  | find (k : Nat)
  | find_with (pred : Nat → Nat → Bool) (k : Nat)
  | get (k : Nat)
  | get_with (pred : Nat → Nat → Bool) (k : Nat)

/-- State transition of one facade operation (read-only operations leave the
state unchanged). -/
def step (H : Nat → Nat) (s : MichaelHashSet) : Op → MichaelHashSet
  | .insert v => (insert H s v).1
  | .emplace v => (emplace H s v).1
  | .ensure v f => (ensure H s v f).1
  | .erase k => (erase H s k).1
  | .erase_with pred k => (erase_with H s pred k).1
  | .extract k => (extract H s k).1
  | .extract_with pred k => (extract_with H s pred k).1
  | .clear => clear s
  | .find _ => s
  | .find_with _ _ => s
  | .get _ => s
  | .get_with _ _ => s

/-- Run a sequence of facade operations. -/
def run (H : Nat → Nat) (s : MichaelHashSet) : List Op → MichaelHashSet
  | [] => s
  | op :: ops => run H (step H s op) ops

/-- Full iteration of the set: all buckets in index order, each bucket in key
order (the forward iterator of the facade). -/
def toList (s : MichaelHashSet) : List Val :=
  s.m_Buckets.flatten

/-- A bucket is strictly ascending by key (§3, bucket invariant). -/
def BucketSorted (b : Bucket) : Prop :=
  b.Pairwise (fun a b => a.key < b.key)

/-- The sequential state invariant: the table has `m_nHashBitmask + 1`
buckets, the counter equals the number of stored values, every bucket is
strictly sorted by key, and every value sits in the bucket its hash selects. -/
def Inv (H : Nat → Nat) (s : MichaelHashSet) : Prop :=
  s.m_Buckets.length = s.m_nHashBitmask + 1 ∧
  s.m_ItemCounter = (s.m_Buckets.map List.length).sum ∧
  (∀ b ∈ s.m_Buckets, BucketSorted b) ∧
  ∀ i < s.m_Buckets.length, ∀ v ∈ s.m_Buckets.getD i [], hash_value H s v.key = i

instance (b : Bucket) : Decidable (BucketSorted b) := by
  unfold BucketSorted
  infer_instance

instance (H : Nat → Nat) (s : MichaelHashSet) : Decidable (Inv H s) := by
  unfold Inv
  infer_instance

/-- A value with key `k` is present in the bucket that `k` hashes to. -/
def KeyIn (H : Nat → Nat) (s : MichaelHashSet) (k : Nat) : Prop :=
  ∃ w ∈ getBucket s (hash_value H s k), w.key = k

/-- Which operations are guaranteed not to remove key `k` from the set:
anything except an erase/extract targeting `k` itself (with a well-behaved
less-predicate for the `_with` variants) and `clear`. -/
def opPreservesKey (k : Nat) : Op → Prop
  | .erase k' => k' ≠ k
  | .erase_with pred k' => (∀ a b : Nat, pred a b = true ↔ a < b) ∧ k' ≠ k
  | .extract k' => k' ≠ k
  | .extract_with pred k' => (∀ a b : Nat, pred a b = true ↔ a < b) ∧ k' ≠ k
  | .clear => False
  | _ => True

/-! ### Generic list helpers -/

lemma getD_set_self {α : Type} (l : List α) (i : Nat) (a d : α) (h : i < l.length) :
    (l.set i a).getD i d = a := by
  simp [List.getD_eq_getElem?_getD, List.getElem?_set_self h]

lemma getD_set_ne {α : Type} (l : List α) {i j : Nat} (a d : α) (h : i ≠ j) :
    (l.set i a).getD j d = l.getD j d := by
  simp [List.getD_eq_getElem?_getD, List.getElem?_set_ne h]

lemma getD_eq_default {α : Type} (l : List α) (i : Nat) (d : α) (h : l.length ≤ i) :
    l.getD i d = d := by
  simp [List.getD_eq_getElem?_getD, List.getElem?_eq_none h]

lemma sum_map_length_set (l : List Bucket) (i : Nat) (b : Bucket) (h : i < l.length) :
    ((l.set i b).map List.length).sum + (l.getD i []).length
      = (l.map List.length).sum + b.length := by
  induction l generalizing i with
  | nil => simp at h
  | cons x xs ih =>
    cases i with
    | zero => simp [List.set]; omega
    | succ n =>
      have hn : n < xs.length := by simpa using h
      have := ih n hn
      simp only [List.set, List.map_cons, List.sum_cons, List.getD_cons_succ]
      omega

lemma and_two_pow_sub_one (n j : Nat) : n &&& (2 ^ j - 1) = n % 2 ^ j := by
  apply Nat.eq_of_testBit_eq
  intro i
  simp [Nat.testBit_and, Nat.testBit_mod_two_pow, Nat.testBit_two_pow_sub_one,
    Bool.and_comm]

/-! ### Bucket-list lemmas -/

lemma bucket_insert_false (v : Val) (l : Bucket) (h : (bucket_insert v l).2 = false) :
    (bucket_insert v l).1 = l := by
  induction l with
  | nil => simp [bucket_insert] at h
  | cons w ws ih =>
    by_cases h1 : w.key < v.key
    · simp only [bucket_insert, if_pos h1] at h ⊢
      simp [ih h]
    · by_cases h2 : w.key = v.key
      · simp [bucket_insert, if_neg h1, if_pos h2]
      · simp [bucket_insert, if_neg h1, if_neg h2] at h

lemma bucket_insert_true_length (v : Val) (l : Bucket)
    (h : (bucket_insert v l).2 = true) :
    (bucket_insert v l).1.length = l.length + 1 := by
  induction l with
  | nil => simp [bucket_insert]
  | cons w ws ih =>
    by_cases h1 : w.key < v.key
    · simp only [bucket_insert, if_pos h1] at h ⊢
      simp [ih h]
    · by_cases h2 : w.key = v.key
      · simp [bucket_insert, if_neg h1, if_pos h2] at h
      · simp [bucket_insert, if_neg h1, if_neg h2]

lemma bucket_insert_subset (v : Val) (l : Bucket) : l ⊆ (bucket_insert v l).1 := by
  induction l with
  | nil => simp
  | cons w ws ih =>
    by_cases h1 : w.key < v.key
    · simp only [bucket_insert, if_pos h1]
      intro u hu
      rcases List.mem_cons.1 hu with h | h
      · simp [h]
      · exact List.mem_cons_of_mem _ (ih h)
    · by_cases h2 : w.key = v.key
      · simp [bucket_insert, if_neg h1, if_pos h2, List.Subset.refl]
      · simp only [bucket_insert, if_neg h1, if_neg h2]
        intro u hu
        exact List.mem_cons_of_mem _ hu

lemma bucket_insert_mem (v : Val) (l : Bucket) (u : Val)
    (h : u ∈ (bucket_insert v l).1) : u ∈ l ∨ u = v := by
  induction l with
  | nil => simp [bucket_insert] at h; simp [h]
  | cons w ws ih =>
    by_cases h1 : w.key < v.key
    · simp only [bucket_insert, if_pos h1] at h
      rcases List.mem_cons.1 h with h' | h'
      · exact Or.inl (by simp [h'])
      · rcases ih h' with h'' | h''
        · exact Or.inl (List.mem_cons_of_mem _ h'')
        · exact Or.inr h''
    · by_cases h2 : w.key = v.key
      · simp only [bucket_insert, if_neg h1, if_pos h2] at h
        exact Or.inl h
      · simp only [bucket_insert, if_neg h1, if_neg h2] at h
        rcases List.mem_cons.1 h with h' | h'
        · exact Or.inr h'
        · exact Or.inl h'

lemma bucket_insert_keyMem (v : Val) (l : Bucket) :
    ∃ w ∈ (bucket_insert v l).1, w.key = v.key := by
  induction l with
  | nil => exact ⟨v, by simp [bucket_insert]⟩
  | cons w ws ih =>
    by_cases h1 : w.key < v.key
    · simp only [bucket_insert, if_pos h1]
      obtain ⟨u, hu, hk⟩ := ih
      exact ⟨u, List.mem_cons_of_mem _ hu, hk⟩
    · by_cases h2 : w.key = v.key
      · exact ⟨w, by simp [bucket_insert, if_neg h1, if_pos h2], h2⟩
      · exact ⟨v, by simp [bucket_insert, if_neg h1, if_neg h2]⟩

lemma bucket_insert_sorted (v : Val) (l : Bucket) (h : BucketSorted l) :
    BucketSorted (bucket_insert v l).1 := by
  induction l with
  | nil => simp [bucket_insert, BucketSorted]
  | cons w ws ih =>
    simp only [BucketSorted, List.pairwise_cons] at h
    by_cases h1 : w.key < v.key
    · simp only [bucket_insert, if_pos h1]
      simp only [BucketSorted, List.pairwise_cons]
      refine ⟨?_, ih h.2⟩
      intro u hu
      rcases bucket_insert_mem v ws u hu with h' | h'
      · exact h.1 u h'
      · simpa [h'] using h1
    · by_cases h2 : w.key = v.key
      · simp only [bucket_insert, if_neg h1, if_pos h2]
        simp only [BucketSorted, List.pairwise_cons]
        exact h
      · have h3 : v.key < w.key := by omega
        simp only [bucket_insert, if_neg h1, if_neg h2]
        simp only [BucketSorted, List.pairwise_cons]
        constructor
        · intro u hu
          rcases List.mem_cons.1 hu with h' | h'
          · simp [h', h3]
          · exact lt_trans h3 (h.1 u h')
        · exact h

lemma bucket_insert_true_iff (v : Val) (l : Bucket) (h : BucketSorted l) :
    (bucket_insert v l).2 = true ↔ ∀ w ∈ l, w.key ≠ v.key := by
  induction l with
  | nil => simp [bucket_insert]
  | cons w ws ih =>
    simp only [BucketSorted, List.pairwise_cons] at h
    by_cases h1 : w.key < v.key
    · simp only [bucket_insert, if_pos h1]
      rw [ih h.2]
      constructor
      · intro hall
        intro u hu
        rcases List.mem_cons.1 hu with h' | h'
        · subst h'; omega
        · exact hall u h'
      · intro hall u hu
        exact hall u (List.mem_cons_of_mem _ hu)
    · by_cases h2 : w.key = v.key
      · simp only [bucket_insert, if_neg h1, if_pos h2]
        constructor
        · intro hfalse; cases hfalse
        · intro hall
          exact absurd h2 (hall w (List.mem_cons_self _ _))
      · have h3 : v.key < w.key := by omega
        simp only [bucket_insert, if_neg h1, if_neg h2]
        constructor
        · intro _ u hu
          rcases List.mem_cons.1 hu with h' | h'
          · subst h'; omega
          · have := h.1 u h'
            omega
        · intro _; trivial

lemma bucket_find_iff (k : Nat) (l : Bucket) (h : BucketSorted l) :
    bucket_find k l = true ↔ ∃ w ∈ l, w.key = k := by
  induction l with
  | nil => simp [bucket_find]
  | cons w ws ih =>
    simp only [BucketSorted, List.pairwise_cons] at h
    by_cases h1 : w.key < k
    · simp only [bucket_find, if_pos h1]
      rw [ih h.2]
      constructor
      · rintro ⟨u, hu, hk⟩
        exact ⟨u, List.mem_cons_of_mem _ hu, hk⟩
      · rintro ⟨u, hu, hk⟩
        rcases List.mem_cons.1 hu with h' | h'
        · subst h'; omega
        · exact ⟨u, h', hk⟩
    · simp only [bucket_find, if_neg h1]
      by_cases h2 : w.key = k
      · simp only [decide_eq_true_eq]
        constructor
        · intro _
          exact ⟨w, List.mem_cons_self _ _, h2⟩
        · intro _
          exact h2
      · simp only [decide_eq_true_eq]
        constructor
        · intro h'
          exact absurd h' h2
        · rintro ⟨u, hu, hk⟩
          rcases List.mem_cons.1 hu with h' | h'
          · exact absurd (h' ▸ hk) h2
          · have := h.1 u h'
            omega

lemma bucket_erase_false (k : Nat) (l : Bucket) (h : (bucket_erase k l).2 = false) :
    (bucket_erase k l).1 = l := by
  induction l with
  | nil => simp [bucket_erase]
  | cons w ws ih =>
    by_cases h1 : w.key < k
    · simp only [bucket_erase, if_pos h1] at h ⊢
      simp [ih h]
    · by_cases h2 : w.key = k
      · simp [bucket_erase, if_neg h1, if_pos h2] at h
      · simp [bucket_erase, if_neg h1, if_neg h2]

lemma bucket_erase_true_length (k : Nat) (l : Bucket)
    (h : (bucket_erase k l).2 = true) :
    (bucket_erase k l).1.length + 1 = l.length := by
  induction l with
  | nil => simp [bucket_erase] at h
  | cons w ws ih =>
    by_cases h1 : w.key < k
    · simp only [bucket_erase, if_pos h1] at h ⊢
      simp only [List.length_cons]
      rw [← ih h]
    · by_cases h2 : w.key = k
      · simp [bucket_erase, if_neg h1, if_pos h2]
      · simp [bucket_erase, if_neg h1, if_neg h2] at h

lemma bucket_erase_sublist (k : Nat) (l : Bucket) :
    (bucket_erase k l).1.Sublist l := by
  induction l with
  | nil => simp [bucket_erase]
  | cons w ws ih =>
    by_cases h1 : w.key < k
    · simp only [bucket_erase, if_pos h1]
      exact List.Sublist.cons₂ w ih
    · by_cases h2 : w.key = k
      · simp only [bucket_erase, if_neg h1, if_pos h2]
        exact List.sublist_cons_self w ws
      · simp [bucket_erase, if_neg h1, if_neg h2]

lemma bucket_erase_mem_of_ne (k : Nat) (l : Bucket) (u : Val) (hu : u ∈ l)
    (hne : u.key ≠ k) : u ∈ (bucket_erase k l).1 := by
  induction l with
  | nil => simp at hu
  | cons w ws ih =>
    by_cases h1 : w.key < k
    · simp only [bucket_erase, if_pos h1]
      rcases List.mem_cons.1 hu with h' | h'
      · simp [h']
      · exact List.mem_cons_of_mem _ (ih h')
    · by_cases h2 : w.key = k
      · simp only [bucket_erase, if_neg h1, if_pos h2]
        rcases List.mem_cons.1 hu with h' | h'
        · exact absurd (h' ▸ h2) hne
        · exact h'
      · simpa [bucket_erase, if_neg h1, if_neg h2] using hu

lemma bucket_erase_with_eq_erase (pred : Nat → Nat → Bool)
    (hpred : ∀ a b : Nat, pred a b = true ↔ a < b) (k : Nat) (l : Bucket) :
    bucket_erase_with pred k l = bucket_erase k l := by
  induction l with
  | nil => simp [bucket_erase_with, bucket_erase]
  | cons w ws ih =>
    by_cases h1 : w.key < k
    · have hw : pred w.key k = true := (hpred _ _).2 h1
      simp only [bucket_erase_with, bucket_erase, if_pos h1, if_pos hw, ih]
    · have hw : ¬ pred w.key k = true := fun hq => h1 ((hpred _ _).1 hq)
      by_cases h2 : k < w.key
      · have hk : pred k w.key = true := (hpred _ _).2 h2
        have h3 : ¬ w.key = k := by omega
        simp only [bucket_erase_with, bucket_erase, if_neg h1, if_neg h3, if_pos hk,
          if_neg hw]
      · have hk : ¬ pred k w.key = true := fun hq => h2 ((hpred _ _).1 hq)
        have h3 : w.key = k := by omega
        simp only [bucket_erase_with, bucket_erase, if_neg h1, if_pos h3, if_neg hk,
          if_neg hw]

lemma bucket_erase_with_false (pred : Nat → Nat → Bool) (k : Nat) (l : Bucket)
    (h : (bucket_erase_with pred k l).2 = false) :
    (bucket_erase_with pred k l).1 = l := by
  induction l with
  | nil => simp [bucket_erase_with]
  | cons w ws ih =>
    by_cases h1 : pred w.key k
    · simp only [bucket_erase_with, if_pos h1] at h ⊢
      simp [ih h]
    · by_cases h2 : pred k w.key
      · simp [bucket_erase_with, if_neg h1, if_pos h2]
      · simp [bucket_erase_with, if_neg h1, if_neg h2] at h

lemma bucket_erase_with_true_length (pred : Nat → Nat → Bool) (k : Nat) (l : Bucket)
    (h : (bucket_erase_with pred k l).2 = true) :
    (bucket_erase_with pred k l).1.length + 1 = l.length := by
  induction l with
  | nil => simp [bucket_erase_with] at h
  | cons w ws ih =>
    by_cases h1 : pred w.key k
    · simp only [bucket_erase_with, if_pos h1] at h ⊢
      simp only [List.length_cons]
      rw [← ih h]
    · by_cases h2 : pred k w.key
      · simp [bucket_erase_with, if_neg h1, if_pos h2] at h
      · simp [bucket_erase_with, if_neg h1, if_neg h2]

lemma bucket_erase_with_sublist (pred : Nat → Nat → Bool) (k : Nat) (l : Bucket) :
    (bucket_erase_with pred k l).1.Sublist l := by
  induction l with
  | nil => simp [bucket_erase_with]
  | cons w ws ih =>
    by_cases h1 : pred w.key k
    · simp only [bucket_erase_with, if_pos h1]
      exact List.Sublist.cons₂ w ih
    · by_cases h2 : pred k w.key
      · simp [bucket_erase_with, if_neg h1, if_pos h2]
      · simp only [bucket_erase_with, if_neg h1, if_neg h2]
        exact List.sublist_cons_self w ws

lemma bucket_extract_eq_erase (k : Nat) (l : Bucket) :
    (bucket_extract k l).1 = (bucket_erase k l).1 ∧
      (bucket_extract k l).2.isSome = (bucket_erase k l).2 := by
  induction l with
  | nil => simp [bucket_extract, bucket_erase]
  | cons w ws ih =>
    by_cases h1 : w.key < k
    · simp only [bucket_extract, bucket_erase, if_pos h1]
      simp [ih.1, ih.2]
    · by_cases h2 : w.key = k
      · simp [bucket_extract, bucket_erase, if_neg h1, if_pos h2]
      · simp [bucket_extract, bucket_erase, if_neg h1, if_neg h2]

lemma bucket_extract_with_eq_erase_with (pred : Nat → Nat → Bool) (k : Nat)
    (l : Bucket) :
    (bucket_extract_with pred k l).1 = (bucket_erase_with pred k l).1 ∧
      (bucket_extract_with pred k l).2.isSome = (bucket_erase_with pred k l).2 := by
  induction l with
  | nil => simp [bucket_extract_with, bucket_erase_with]
  | cons w ws ih =>
    by_cases h1 : pred w.key k
    · simp only [bucket_extract_with, bucket_erase_with, if_pos h1]
      simp [ih.1, ih.2]
    · by_cases h2 : pred k w.key
      · simp [bucket_extract_with, bucket_erase_with, if_neg h1, if_pos h2]
      · simp [bucket_extract_with, bucket_erase_with, if_neg h1, if_neg h2]

lemma bucket_ensure_fst_true (v : Val) (f : Bool → Nat → Nat) (l : Bucket) :
    (bucket_ensure v f l).2.1 = true := by
  induction l with
  | nil => simp [bucket_ensure]
  | cons w ws ih =>
    by_cases h1 : w.key < v.key
    · simp only [bucket_ensure, if_pos h1]
      exact ih
    · by_cases h2 : w.key = v.key
      · simp [bucket_ensure, if_neg h1, if_pos h2]
      · simp [bucket_ensure, if_neg h1, if_neg h2]

lemma bucket_ensure_length (v : Val) (f : Bool → Nat → Nat) (l : Bucket) :
    (bucket_ensure v f l).1.length
      = l.length + (if (bucket_ensure v f l).2.2 then 1 else 0) := by
  induction l with
  | nil => simp [bucket_ensure]
  | cons w ws ih =>
    by_cases h1 : w.key < v.key
    · simp only [bucket_ensure, if_pos h1, List.length_cons]
      omega
    · by_cases h2 : w.key = v.key
      · simp [bucket_ensure, if_neg h1, if_pos h2]
      · simp [bucket_ensure, if_neg h1, if_neg h2]

lemma bucket_ensure_mem (v : Val) (f : Bool → Nat → Nat) (l : Bucket) (u : Val)
    (h : u ∈ (bucket_ensure v f l).1) :
    (∃ w ∈ l, u.key = w.key) ∨ u.key = v.key := by
  induction l with
  | nil =>
    simp [bucket_ensure] at h
    simp [h]
  | cons w ws ih =>
    by_cases h1 : w.key < v.key
    · simp only [bucket_ensure, if_pos h1] at h
      rcases List.mem_cons.1 h with h' | h'
      · exact Or.inl ⟨w, List.mem_cons_self _ _, by simp [h']⟩
      · rcases ih h' with ⟨w', hw', hk⟩ | hk
        · exact Or.inl ⟨w', List.mem_cons_of_mem _ hw', hk⟩
        · exact Or.inr hk
    · by_cases h2 : w.key = v.key
      · simp only [bucket_ensure, if_neg h1, if_pos h2] at h
        rcases List.mem_cons.1 h with h' | h'
        · exact Or.inr (by simp [h', h2])
        · exact Or.inl ⟨u, List.mem_cons_of_mem _ h', rfl⟩
      · simp only [bucket_ensure, if_neg h1, if_neg h2] at h
        rcases List.mem_cons.1 h with h' | h'
        · exact Or.inr (by simp [h'])
        · exact Or.inl ⟨u, h', rfl⟩

lemma bucket_ensure_keyMem_self (v : Val) (f : Bool → Nat → Nat) (l : Bucket) :
    ∃ w ∈ (bucket_ensure v f l).1, w.key = v.key := by
  induction l with
  | nil => exact ⟨⟨v.key, f true v.payload⟩, by simp [bucket_ensure]⟩
  | cons w ws ih =>
    by_cases h1 : w.key < v.key
    · simp only [bucket_ensure, if_pos h1]
      obtain ⟨u, hu, hk⟩ := ih
      exact ⟨u, List.mem_cons_of_mem _ hu, hk⟩
    · by_cases h2 : w.key = v.key
      · exact ⟨⟨w.key, f false w.payload⟩,
          by simp [bucket_ensure, if_neg h1, if_pos h2], h2⟩
      · exact ⟨⟨v.key, f true v.payload⟩,
          by simp [bucket_ensure, if_neg h1, if_neg h2]⟩

lemma bucket_ensure_keyMem_preserved (v : Val) (f : Bool → Nat → Nat) (l : Bucket)
    (u : Val) (hu : u ∈ l) : u.key = v.key ∨ u ∈ (bucket_ensure v f l).1 := by
  induction l with
  | nil => simp at hu
  | cons w ws ih =>
    by_cases h1 : w.key < v.key
    · simp only [bucket_ensure, if_pos h1]
      rcases List.mem_cons.1 hu with h' | h'
      · exact Or.inr (by simp [h'])
      · rcases ih h' with h'' | h''
        · exact Or.inl h''
        · exact Or.inr (List.mem_cons_of_mem _ h'')
    · by_cases h2 : w.key = v.key
      · simp only [bucket_ensure, if_neg h1, if_pos h2]
        rcases List.mem_cons.1 hu with h' | h'
        · exact Or.inl (by simp [h', h2])
        · exact Or.inr (List.mem_cons_of_mem _ h')
      · simp only [bucket_ensure, if_neg h1, if_neg h2]
        exact Or.inr (List.mem_cons_of_mem _ hu)

lemma bucket_ensure_sorted (v : Val) (f : Bool → Nat → Nat) (l : Bucket)
    (h : BucketSorted l) : BucketSorted (bucket_ensure v f l).1 := by
  induction l with
  | nil => simp [bucket_ensure, BucketSorted]
  | cons w ws ih =>
    simp only [BucketSorted, List.pairwise_cons] at h
    by_cases h1 : w.key < v.key
    · simp only [bucket_ensure, if_pos h1]
      simp only [BucketSorted, List.pairwise_cons]
      refine ⟨?_, ih h.2⟩
      intro u hu
      rcases bucket_ensure_mem v f ws u hu with ⟨w', hw', hk⟩ | hk
      · rw [hk]
        exact h.1 w' hw'
      · omega
    · by_cases h2 : w.key = v.key
      · simp only [bucket_ensure, if_neg h1, if_pos h2]
        simp only [BucketSorted, List.pairwise_cons]
        exact h
      · have h3 : v.key < w.key := by omega
        simp only [bucket_ensure, if_neg h1, if_neg h2]
        simp only [BucketSorted, List.pairwise_cons]
        constructor
        · intro u hu
          rcases List.mem_cons.1 hu with h' | h'
          · simp [h', h3]
          · have := h.1 u h'
            show v.key < u.key
            omega
        · exact ⟨h.1, h.2⟩

lemma bucket_ensure_found (v : Val) (f : Bool → Nat → Nat) (l : Bucket)
    (h : BucketSorted l) (hmem : ∃ w ∈ l, w.key = v.key) :
    ∃ l1 w l2, l = l1 ++ w :: l2 ∧ w.key = v.key ∧
      (bucket_ensure v f l).1 = l1 ++ ⟨w.key, f false w.payload⟩ :: l2 ∧
      (bucket_ensure v f l).2 = (true, false) := by
  induction l with
  | nil => simp at hmem
  | cons w ws ih =>
    simp only [BucketSorted, List.pairwise_cons] at h
    by_cases h1 : w.key < v.key
    · have hmem' : ∃ u ∈ ws, u.key = v.key := by
        obtain ⟨u, hu, hk⟩ := hmem
        rcases List.mem_cons.1 hu with h' | h'
        · subst h'; omega
        · exact ⟨u, h', hk⟩
      obtain ⟨l1, w', l2, heq, hk, hres, hpair⟩ := ih h.2 hmem'
      refine ⟨w :: l1, w', l2, by simp [heq], hk, ?_, ?_⟩
      · simp only [bucket_ensure, if_pos h1, hres, List.cons_append]
      · simp only [bucket_ensure, if_pos h1, hpair]
    · by_cases h2 : w.key = v.key
      · exact ⟨[], w, ws, by simp, h2,
          by simp [bucket_ensure, if_neg h1, if_pos h2],
          by simp [bucket_ensure, if_neg h1, if_pos h2]⟩
      · have h3 : v.key < w.key := by omega
        exfalso
        obtain ⟨u, hu, hk⟩ := hmem
        rcases List.mem_cons.1 hu with h' | h'
        · subst h'; omega
        · have := h.1 u h'
          omega

lemma bucket_get_some (k : Nat) (l : Bucket) (v : Val)
    (h : bucket_get k l = some v) : v.key = k ∧ v ∈ l := by
  induction l with
  | nil => simp [bucket_get] at h
  | cons w ws ih =>
    by_cases h1 : w.key < k
    · simp only [bucket_get, if_pos h1] at h
      obtain ⟨hk, hm⟩ := ih h
      exact ⟨hk, List.mem_cons_of_mem _ hm⟩
    · by_cases h2 : w.key = k
      · simp only [bucket_get, if_neg h1, if_pos h2, Option.some.injEq] at h
        subst h
        exact ⟨h2, List.mem_cons_self _ _⟩
      · simp [bucket_get, if_neg h1, if_neg h2] at h

lemma bucket_get_none_iff (k : Nat) (l : Bucket) (h : BucketSorted l) :
    bucket_get k l = none ↔ ∀ w ∈ l, w.key ≠ k := by
  induction l with
  | nil => simp [bucket_get]
  | cons w ws ih =>
    simp only [BucketSorted, List.pairwise_cons] at h
    by_cases h1 : w.key < k
    · simp only [bucket_get, if_pos h1]
      rw [ih h.2]
      constructor
      · intro hall u hu
        rcases List.mem_cons.1 hu with h' | h'
        · subst h'; omega
        · exact hall u h'
      · intro hall u hu
        exact hall u (List.mem_cons_of_mem _ hu)
    · by_cases h2 : w.key = k
      · simp only [bucket_get, if_neg h1, if_pos h2]
        constructor
        · intro hfalse; cases hfalse
        · intro hall
          exact absurd h2 (hall w (List.mem_cons_self _ _))
      · simp only [bucket_get, if_neg h1, if_neg h2, true_iff]
        intro u hu
        rcases List.mem_cons.1 hu with h' | h'
        · subst h'; exact h2
        · have := h.1 u h'
          omega

/-! ### Facade invariant machinery -/

lemma getD_mem {α : Type} (l : List α) (i : Nat) (d : α) (h : i < l.length) :
    l.getD i d ∈ l := by
  rw [List.getD_eq_getElem?_getD, List.getElem?_eq_getElem h]
  exact List.getElem_mem h

lemma hash_lt (H : Nat → Nat) (s : MichaelHashSet) (k : Nat)
    (hlen : s.m_Buckets.length = s.m_nHashBitmask + 1) :
    hash_value H s k < s.m_Buckets.length := by
  have hle : H k &&& s.m_nHashBitmask ≤ s.m_nHashBitmask := Nat.and_le_right
  simp only [hash_value]
  omega

lemma bucket_len_le_sum (l : List Bucket) (i : Nat) (h : i < l.length) :
    (l.getD i []).length ≤ (l.map List.length).sum := by
  have hmem : (l.getD i []).length ∈ l.map List.length :=
    List.mem_map_of_mem _ (getD_mem l i [] h)
  exact List.single_le_sum (fun x _ => Nat.zero_le x) _ hmem

lemma inv_update (H : Nat → Nat) (s : MichaelHashSet) (hInv : Inv H s) (i : Nat)
    (b' : Bucket) (c' : Nat) (hi : i < s.m_Buckets.length)
    (hmem : ∀ u ∈ b', u ∈ s.m_Buckets.getD i [] ∨ hash_value H s u.key = i)
    (hsort : BucketSorted b')
    (hc : c' + (s.m_Buckets.getD i []).length = s.m_ItemCounter + b'.length) :
    Inv H { m_ItemCounter := c', m_Buckets := s.m_Buckets.set i b',
            m_nHashBitmask := s.m_nHashBitmask } := by
  obtain ⟨hlen, hcnt, hsorted, hplaced⟩ := hInv
  refine ⟨by simpa using hlen, ?_, ?_, ?_⟩
  · have hsum := sum_map_length_set s.m_Buckets i b' hi
    simp only at hsum ⊢
    omega
  · intro b hb
    rcases List.mem_or_eq_of_mem_set hb with h' | h'
    · exact hsorted b h'
    · exact h' ▸ hsort
  · intro j hj u hu
    simp only [List.length_set] at hj
    by_cases hij : i = j
    · subst hij
      rw [getD_set_self _ _ _ _ hi] at hu
      rcases hmem u hu with h' | h'
      · exact hplaced i hi u h'
      · exact h'
    · rw [getD_set_ne _ _ _ hij] at hu
      exact hplaced j hj u hu

lemma inv_insert (H : Nat → Nat) (s : MichaelHashSet) (v : Val) (hInv : Inv H s) :
    Inv H (insert H s v).1 := by
  have hlen := hInv.1
  have hi := hash_lt H s v.key hlen
  have hsortb := hInv.2.2.1 _ (getD_mem s.m_Buckets (hash_value H s v.key) [] hi)
  cases hsucc : (bucket_insert v (getBucket s (hash_value H s v.key))).2 with
  | true =>
    have hl := bucket_insert_true_length v (getBucket s (hash_value H s v.key)) hsucc
    simp only [insert, hsucc, if_true]
    refine inv_update H s hInv _ _ _ hi ?_ ?_ ?_
    · intro u hu
      rcases bucket_insert_mem _ _ _ hu with h' | h'
      · exact Or.inl h'
      · exact Or.inr (by rw [h'])
    · exact bucket_insert_sorted _ _ hsortb
    · simp only [getBucket] at hl
      simp only [getBucket]
      omega
  | false =>
    have hl := bucket_insert_false v (getBucket s (hash_value H s v.key)) hsucc
    simp only [insert, hsucc, if_false, setBucket]
    refine inv_update H s hInv _ _ _ hi ?_ ?_ ?_
    · intro u hu
      rw [hl] at hu
      exact Or.inl hu
    · rw [hl]
      exact hsortb
    · rw [hl]
      rfl

lemma inv_emplace (H : Nat → Nat) (s : MichaelHashSet) (v : Val) (hInv : Inv H s) :
    Inv H (emplace H s v).1 := by
  have h : emplace H s v = insert H s v := rfl
  rw [h]
  exact inv_insert H s v hInv

lemma inv_ensure (H : Nat → Nat) (s : MichaelHashSet) (v : Val)
    (f : Bool → Nat → Nat) (hInv : Inv H s) : Inv H (ensure H s v f).1 := by
  have hlen := hInv.1
  have hi := hash_lt H s v.key hlen
  have hsortb := hInv.2.2.1 _ (getD_mem s.m_Buckets (hash_value H s v.key) [] hi)
  have hplaced := hInv.2.2.2
  have hmem : ∀ u ∈ (bucket_ensure v f (getBucket s (hash_value H s v.key))).1,
      u ∈ s.m_Buckets.getD (hash_value H s v.key) [] ∨
        hash_value H s u.key = hash_value H s v.key := by
    intro u hu
    rcases bucket_ensure_mem _ _ _ _ hu with ⟨w', hw', hk⟩ | hk
    · exact Or.inr (by rw [hk, hplaced _ hi w' hw'])
    · exact Or.inr (by rw [hk])
  have hsort' := bucket_ensure_sorted v f _ hsortb
  have hl := bucket_ensure_length v f (getBucket s (hash_value H s v.key))
  have hfst := bucket_ensure_fst_true v f (getBucket s (hash_value H s v.key))
  cases hsucc : (bucket_ensure v f (getBucket s (hash_value H s v.key))).2.2 with
  | true =>
    have hcond : ((bucket_ensure v f (getBucket s (hash_value H s v.key))).2.1 &&
        (bucket_ensure v f (getBucket s (hash_value H s v.key))).2.2) = true := by
      rw [hfst, hsucc]
      rfl
    simp only [ensure, hcond, if_true]
    refine inv_update H s hInv _ _ _ hi hmem hsort' ?_
    rw [hsucc] at hl
    simp only [if_true] at hl
    simp only [getBucket] at hl ⊢
    omega
  | false =>
    have hcond : ((bucket_ensure v f (getBucket s (hash_value H s v.key))).2.1 &&
        (bucket_ensure v f (getBucket s (hash_value H s v.key))).2.2) = false := by
      rw [hfst, hsucc]
      rfl
    simp only [ensure, hcond, if_false, setBucket]
    refine inv_update H s hInv _ _ _ hi hmem hsort' ?_
    rw [hsucc] at hl
    have hl' : (bucket_ensure v f (getBucket s (hash_value H s v.key))).1.length
        = (getBucket s (hash_value H s v.key)).length := by
      simpa using hl
    simp only [getBucket] at hl' ⊢
    omega

lemma inv_erase (H : Nat → Nat) (s : MichaelHashSet) (k : Nat) (hInv : Inv H s) :
    Inv H (erase H s k).1 := by
  have hlen := hInv.1
  have hi := hash_lt H s k hlen
  have hsortb := hInv.2.2.1 _ (getD_mem s.m_Buckets (hash_value H s k) [] hi)
  have hsub := bucket_erase_sublist k (getBucket s (hash_value H s k))
  cases hsucc : (bucket_erase k (getBucket s (hash_value H s k))).2 with
  | true =>
    have hl := bucket_erase_true_length k (getBucket s (hash_value H s k)) hsucc
    have hble := bucket_len_le_sum s.m_Buckets (hash_value H s k) hi
    have hcnt := hInv.2.1
    simp only [erase, hsucc, if_true]
    refine inv_update H s hInv _ _ _ hi ?_ ?_ ?_
    · intro u hu
      exact Or.inl (hsub.subset hu)
    · exact List.Pairwise.sublist hsub hsortb
    · simp only [getBucket] at hl ⊢
      omega
  | false =>
    have hl := bucket_erase_false k (getBucket s (hash_value H s k)) hsucc
    simp only [erase, hsucc, if_false, setBucket]
    refine inv_update H s hInv _ _ _ hi ?_ ?_ ?_
    · intro u hu
      rw [hl] at hu
      exact Or.inl hu
    · rw [hl]
      exact hsortb
    · rw [hl]
      rfl

lemma inv_erase_with (H : Nat → Nat) (s : MichaelHashSet) (pred : Nat → Nat → Bool)
    (k : Nat) (hInv : Inv H s) : Inv H (erase_with H s pred k).1 := by
  have hlen := hInv.1
  have hi := hash_lt H s k hlen
  have hsortb := hInv.2.2.1 _ (getD_mem s.m_Buckets (hash_value H s k) [] hi)
  have hsub := bucket_erase_with_sublist pred k (getBucket s (hash_value H s k))
  cases hsucc : (bucket_erase_with pred k (getBucket s (hash_value H s k))).2 with
  | true =>
    have hl := bucket_erase_with_true_length pred k (getBucket s (hash_value H s k)) hsucc
    have hble := bucket_len_le_sum s.m_Buckets (hash_value H s k) hi
    have hcnt := hInv.2.1
    simp only [erase_with, hsucc, if_true]
    refine inv_update H s hInv _ _ _ hi ?_ ?_ ?_
    · intro u hu
      exact Or.inl (hsub.subset hu)
    · exact List.Pairwise.sublist hsub hsortb
    · simp only [getBucket] at hl ⊢
      omega
  | false =>
    have hl := bucket_erase_with_false pred k (getBucket s (hash_value H s k)) hsucc
    simp only [erase_with, hsucc, if_false, setBucket]
    refine inv_update H s hInv _ _ _ hi ?_ ?_ ?_
    · intro u hu
      rw [hl] at hu
      exact Or.inl hu
    · rw [hl]
      exact hsortb
    · rw [hl]
      rfl

lemma inv_extract (H : Nat → Nat) (s : MichaelHashSet) (k : Nat) (hInv : Inv H s) :
    Inv H (extract H s k).1 := by
  have hlen := hInv.1
  have hi := hash_lt H s k hlen
  have hsortb := hInv.2.2.1 _ (getD_mem s.m_Buckets (hash_value H s k) [] hi)
  obtain ⟨hfst, hsnd⟩ := bucket_extract_eq_erase k (getBucket s (hash_value H s k))
  have hsub := bucket_erase_sublist k (getBucket s (hash_value H s k))
  cases hr : (bucket_extract k (getBucket s (hash_value H s k))).2 with
  | some v =>
    have htrue : (bucket_erase k (getBucket s (hash_value H s k))).2 = true := by
      rw [← hsnd, hr]
      rfl
    have hl := bucket_erase_true_length k _ htrue
    have hble := bucket_len_le_sum s.m_Buckets (hash_value H s k) hi
    have hcnt := hInv.2.1
    simp only [extract, hr]
    refine inv_update H s hInv _ _ _ hi ?_ ?_ ?_
    · intro u hu
      rw [hfst] at hu
      exact Or.inl (hsub.subset hu)
    · rw [hfst]
      exact List.Pairwise.sublist hsub hsortb
    · rw [hfst]
      simp only [getBucket] at hl ⊢
      omega
  | none =>
    have hfalse : (bucket_erase k (getBucket s (hash_value H s k))).2 = false := by
      rw [← hsnd, hr]
      rfl
    have hl := bucket_erase_false k _ hfalse
    simp only [extract, hr, setBucket]
    refine inv_update H s hInv _ _ _ hi ?_ ?_ ?_
    · intro u hu
      rw [hfst, hl] at hu
      exact Or.inl hu
    · rw [hfst, hl]
      exact hsortb
    · rw [hfst, hl]
      rfl

lemma inv_extract_with (H : Nat → Nat) (s : MichaelHashSet) (pred : Nat → Nat → Bool)
    (k : Nat) (hInv : Inv H s) : Inv H (extract_with H s pred k).1 := by
  have hlen := hInv.1
  have hi := hash_lt H s k hlen
  have hsortb := hInv.2.2.1 _ (getD_mem s.m_Buckets (hash_value H s k) [] hi)
  obtain ⟨hfst, hsnd⟩ :=
    bucket_extract_with_eq_erase_with pred k (getBucket s (hash_value H s k))
  have hsub := bucket_erase_with_sublist pred k (getBucket s (hash_value H s k))
  cases hr : (bucket_extract_with pred k (getBucket s (hash_value H s k))).2 with
  | some v =>
    have htrue : (bucket_erase_with pred k (getBucket s (hash_value H s k))).2 = true := by
      rw [← hsnd, hr]
      rfl
    have hl := bucket_erase_with_true_length pred k _ htrue
    have hble := bucket_len_le_sum s.m_Buckets (hash_value H s k) hi
    have hcnt := hInv.2.1
    simp only [extract_with, hr]
    refine inv_update H s hInv _ _ _ hi ?_ ?_ ?_
    · intro u hu
      rw [hfst] at hu
      exact Or.inl (hsub.subset hu)
    · rw [hfst]
      exact List.Pairwise.sublist hsub hsortb
    · rw [hfst]
      simp only [getBucket] at hl ⊢
      omega
  | none =>
    have hfalse : (bucket_erase_with pred k (getBucket s (hash_value H s k))).2 = false := by
      rw [← hsnd, hr]
      rfl
    have hl := bucket_erase_with_false pred k _ hfalse
    simp only [extract_with, hr, setBucket]
    refine inv_update H s hInv _ _ _ hi ?_ ?_ ?_
    · intro u hu
      rw [hfst, hl] at hu
      exact Or.inl hu
    · rw [hfst, hl]
      exact hsortb
    · rw [hfst, hl]
      rfl

lemma clearFold_length (bs : List Bucket) (n : Nat) :
    ((List.range n).foldl
      (fun bs i => bs.set i (bucket_clear (bs.getD i []))) bs).length = bs.length := by
  induction n with
  | zero => rfl
  | succ n ih =>
    rw [List.range_succ, List.foldl_append]
    simp only [List.foldl_cons, List.foldl_nil]
    rw [List.length_set]
    exact ih

lemma clearFold_getD (bs : List Bucket) (n j : Nat) :
    ((List.range n).foldl
        (fun bs i => bs.set i (bucket_clear (bs.getD i []))) bs).getD j []
      = if j < n then [] else bs.getD j [] := by
  induction n with
  | zero => simp
  | succ n ih =>
    rw [List.range_succ, List.foldl_append]
    simp only [List.foldl_cons, List.foldl_nil]
    by_cases hj : j = n
    · subst hj
      by_cases hlen : j <
          ((List.range j).foldl
            (fun bs i => bs.set i (bucket_clear (bs.getD i []))) bs).length
      · rw [getD_set_self _ _ _ _ hlen]
        simp [bucket_clear]
      · rw [List.set_eq_of_length_le (by omega)]
        rw [getD_eq_default _ _ _ (by omega)]
        simp
    · rw [getD_set_ne _ _ _ (fun h => hj h.symm)]
      rw [ih]
      by_cases hlt : j < n
      · simp [hlt, Nat.lt_succ_of_lt hlt]
      · have hlt2 : ¬ j < n + 1 := by omega
        simp [hlt, hlt2]

lemma clear_buckets_length (s : MichaelHashSet) :
    (clear s).m_Buckets.length = s.m_Buckets.length :=
  clearFold_length s.m_Buckets (bucket_count s)

lemma clear_buckets_getD (s : MichaelHashSet) (j : Nat) :
    (clear s).m_Buckets.getD j []
      = if j < bucket_count s then [] else s.m_Buckets.getD j [] :=
  clearFold_getD s.m_Buckets (bucket_count s) j

lemma mem_getD {α : Type} (l : List α) (d : α) (b : α) (hb : b ∈ l) :
    ∃ j, j < l.length ∧ l.getD j d = b := by
  obtain ⟨i, hi, heq⟩ := List.mem_iff_getElem.1 hb
  refine ⟨i, hi, ?_⟩
  rw [List.getD_eq_getElem?_getD, List.getElem?_eq_getElem hi]
  exact heq

lemma inv_clear (H : Nat → Nat) (s : MichaelHashSet) (hInv : Inv H s) :
    Inv H (clear s) := by
  have hlen := hInv.1
  have hcount : bucket_count s = s.m_Buckets.length := by
    simp [bucket_count, hlen]
  have hallnil : ∀ b ∈ (clear s).m_Buckets, b = [] := by
    intro b hb
    obtain ⟨j, hj, hjb⟩ := mem_getD (clear s).m_Buckets [] b hb
    rw [clear_buckets_getD] at hjb
    rw [clear_buckets_length] at hj
    rw [if_pos (by omega)] at hjb
    exact hjb.symm
  refine ⟨?_, ?_, ?_, ?_⟩
  · rw [clear_buckets_length]
    exact hlen
  · have : ∀ x ∈ (clear s).m_Buckets.map List.length, x = 0 := by
      intro x hx
      obtain ⟨b, hb, hxb⟩ := List.mem_map.1 hx
      rw [hallnil b hb] at hxb
      exact hxb.symm
    rw [List.sum_eq_zero this]
    rfl
  · intro b hb
    rw [hallnil b hb]
    simp [BucketSorted]
  · intro j hj u hu
    rw [clear_buckets_getD] at hu
    rw [clear_buckets_length] at hj
    rw [if_pos (by omega)] at hu
    simp at hu

lemma inv_step (H : Nat → Nat) (s : MichaelHashSet) (op : Op) (hInv : Inv H s) :
    Inv H (step H s op) := by
  cases op with
  | insert v => exact inv_insert H s v hInv
  | emplace v => exact inv_emplace H s v hInv
  | ensure v f => exact inv_ensure H s v f hInv
  | erase k => exact inv_erase H s k hInv
  | erase_with pred k => exact inv_erase_with H s pred k hInv
  | extract k => exact inv_extract H s k hInv
  | extract_with pred k => exact inv_extract_with H s pred k hInv
  | clear => exact inv_clear H s hInv
  | find k => exact hInv
  | find_with pred k => exact hInv
  | get k => exact hInv
  | get_with pred k => exact hInv

lemma inv_run (H : Nat → Nat) (s : MichaelHashSet) (ops : List Op) (hInv : Inv H s) :
    Inv H (run H s ops) := by
  induction ops generalizing s with
  | nil => exact hInv
  | cons op ops ih => exact ih _ (inv_step H s op hInv)

lemma getD_replicate_nil (n j : Nat) :
    (List.replicate n ([] : Bucket)).getD j [] = [] := by
  by_cases hj : j < n
  · rw [List.getD_eq_getElem?_getD,
      List.getElem?_eq_getElem (by simpa using hj)]
    simp
  · rw [getD_eq_default]
    simpa using hj

lemma inv_mk (H : Nat → Nat) (ecnt : Bool) (nMax nLf : Nat) (s0 : MichaelHashSet)
    (h : mkMichaelHashSet ecnt nMax nLf = Except.ok s0) : Inv H s0 := by
  cases ecnt with
  | true => simp [mkMichaelHashSet] at h
  | false =>
    simp only [mkMichaelHashSet, Bool.false_eq_true, if_false, Except.ok.injEq] at h
    subst h
    refine ⟨by simp, by simp, ?_, ?_⟩
    · intro b hb
      rw [List.eq_of_mem_replicate hb]
      simp [BucketSorted]
    · intro j hj u hu
      rw [getD_replicate_nil] at hu
      simp at hu

lemma step_bitmask (H : Nat → Nat) (s : MichaelHashSet) (op : Op) :
    (step H s op).m_nHashBitmask = s.m_nHashBitmask := by
  cases op with
  | insert v =>
    simp only [step, insert]
    split <;> rfl
  | emplace v =>
    simp only [step, emplace, bucket_emplace]
    split <;> rfl
  | ensure v f =>
    simp only [step, ensure]
    split <;> rfl
  | erase k =>
    simp only [step, erase]
    split <;> rfl
  | erase_with pred k =>
    simp only [step, erase_with]
    split <;> rfl
  | extract k =>
    simp only [step, extract]
    split <;> rfl
  | extract_with pred k =>
    simp only [step, extract_with]
    split <;> rfl
  | clear => rfl
  | find k => rfl
  | find_with pred k => rfl
  | get k => rfl
  | get_with pred k => rfl

lemma run_bitmask (H : Nat → Nat) (s : MichaelHashSet) (ops : List Op) :
    (run H s ops).m_nHashBitmask = s.m_nHashBitmask := by
  induction ops generalizing s with
  | nil => rfl
  | cons op ops ih =>
    rw [run, ih, step_bitmask]

lemma toList_length (s : MichaelHashSet) :
    (toList s).length = (s.m_Buckets.map List.length).sum := by
  simp [toList]

/-! ### Counter-delta lemmas -/

lemma size_insert_true (H : Nat → Nat) (s : MichaelHashSet) (v : Val)
    (h : (insert H s v).2 = true) : size (insert H s v).1 = size s + 1 := by
  cases hr : (bucket_insert v (getBucket s (hash_value H s v.key))).2 with
  | false => simp [insert, hr] at h
  | true => simp [insert, hr, size]

lemma size_insert_false (H : Nat → Nat) (s : MichaelHashSet) (v : Val)
    (h : (insert H s v).2 = false) : size (insert H s v).1 = size s := by
  cases hr : (bucket_insert v (getBucket s (hash_value H s v.key))).2 with
  | true => simp [insert, hr] at h
  | false => simp [insert, hr, size, setBucket]

lemma size_emplace_true (H : Nat → Nat) (s : MichaelHashSet) (v : Val)
    (h : (emplace H s v).2 = true) : size (emplace H s v).1 = size s + 1 :=
  size_insert_true H s v h

lemma size_emplace_false (H : Nat → Nat) (s : MichaelHashSet) (v : Val)
    (h : (emplace H s v).2 = false) : size (emplace H s v).1 = size s :=
  size_insert_false H s v h

lemma counter_ge_bucket (H : Nat → Nat) (s : MichaelHashSet) (k : Nat)
    (hInv : Inv H s) :
    (s.m_Buckets.getD (hash_value H s k) []).length ≤ s.m_ItemCounter := by
  have hi := hash_lt H s k hInv.1
  have hble := bucket_len_le_sum s.m_Buckets (hash_value H s k) hi
  rw [hInv.2.1]
  exact hble

lemma size_erase_true (H : Nat → Nat) (s : MichaelHashSet) (k : Nat)
    (hInv : Inv H s) (h : (erase H s k).2 = true) :
    size (erase H s k).1 + 1 = size s := by
  cases hr : (bucket_erase k (getBucket s (hash_value H s k))).2 with
  | false => simp [erase, hr] at h
  | true =>
    have hl := bucket_erase_true_length k (getBucket s (hash_value H s k)) hr
    have hge := counter_ge_bucket H s k hInv
    simp only [erase, hr, if_true, size]
    simp only [getBucket] at hl
    omega

lemma size_erase_false (H : Nat → Nat) (s : MichaelHashSet) (k : Nat)
    (h : (erase H s k).2 = false) : size (erase H s k).1 = size s := by
  cases hr : (bucket_erase k (getBucket s (hash_value H s k))).2 with
  | true => simp [erase, hr] at h
  | false => simp [erase, hr, size, setBucket]

lemma size_erase_with_true (H : Nat → Nat) (s : MichaelHashSet)
    (pred : Nat → Nat → Bool) (k : Nat) (hInv : Inv H s)
    (h : (erase_with H s pred k).2 = true) :
    size (erase_with H s pred k).1 + 1 = size s := by
  cases hr : (bucket_erase_with pred k (getBucket s (hash_value H s k))).2 with
  | false => simp [erase_with, hr] at h
  | true =>
    have hl := bucket_erase_with_true_length pred k (getBucket s (hash_value H s k)) hr
    have hge := counter_ge_bucket H s k hInv
    simp only [erase_with, hr, if_true, size]
    simp only [getBucket] at hl
    omega

lemma size_erase_with_false (H : Nat → Nat) (s : MichaelHashSet)
    (pred : Nat → Nat → Bool) (k : Nat)
    (h : (erase_with H s pred k).2 = false) :
    size (erase_with H s pred k).1 = size s := by
  cases hr : (bucket_erase_with pred k (getBucket s (hash_value H s k))).2 with
  | true => simp [erase_with, hr] at h
  | false => simp [erase_with, hr, size, setBucket]

lemma size_extract_some (H : Nat → Nat) (s : MichaelHashSet) (k : Nat)
    (hInv : Inv H s) (h : (extract H s k).2.isSome = true) :
    size (extract H s k).1 + 1 = size s := by
  obtain ⟨hfst, hsnd⟩ := bucket_extract_eq_erase k (getBucket s (hash_value H s k))
  cases hr : (bucket_extract k (getBucket s (hash_value H s k))).2 with
  | none => simp [extract, hr] at h
  | some v =>
    have htrue : (bucket_erase k (getBucket s (hash_value H s k))).2 = true := by
      rw [← hsnd, hr]
      rfl
    have hl := bucket_erase_true_length k (getBucket s (hash_value H s k)) htrue
    have hge := counter_ge_bucket H s k hInv
    simp only [extract, hr, size]
    simp only [getBucket] at hl
    omega

lemma size_extract_none (H : Nat → Nat) (s : MichaelHashSet) (k : Nat)
    (h : (extract H s k).2 = none) : size (extract H s k).1 = size s := by
  cases hr : (bucket_extract k (getBucket s (hash_value H s k))).2 with
  | some v => simp [extract, hr] at h
  | none => simp [extract, hr, size, setBucket]

lemma size_extract_with_some (H : Nat → Nat) (s : MichaelHashSet)
    (pred : Nat → Nat → Bool) (k : Nat) (hInv : Inv H s)
    (h : (extract_with H s pred k).2.isSome = true) :
    size (extract_with H s pred k).1 + 1 = size s := by
  obtain ⟨hfst, hsnd⟩ :=
    bucket_extract_with_eq_erase_with pred k (getBucket s (hash_value H s k))
  cases hr : (bucket_extract_with pred k (getBucket s (hash_value H s k))).2 with
  | none => simp [extract_with, hr] at h
  | some v =>
    have htrue : (bucket_erase_with pred k (getBucket s (hash_value H s k))).2 = true := by
      rw [← hsnd, hr]
      rfl
    have hl := bucket_erase_with_true_length pred k (getBucket s (hash_value H s k)) htrue
    have hge := counter_ge_bucket H s k hInv
    simp only [extract_with, hr, size]
    simp only [getBucket] at hl
    omega

lemma size_extract_with_none (H : Nat → Nat) (s : MichaelHashSet)
    (pred : Nat → Nat → Bool) (k : Nat)
    (h : (extract_with H s pred k).2 = none) :
    size (extract_with H s pred k).1 = size s := by
  cases hr : (bucket_extract_with pred k (getBucket s (hash_value H s k))).2 with
  | some v => simp [extract_with, hr] at h
  | none => simp [extract_with, hr, size, setBucket]

/-! ### Key membership machinery -/

lemma insert_buckets (H : Nat → Nat) (s : MichaelHashSet) (v : Val) :
    (insert H s v).1.m_Buckets
      = s.m_Buckets.set (hash_value H s v.key)
          (bucket_insert v (getBucket s (hash_value H s v.key))).1 := by
  simp only [insert]
  split <;> rfl

lemma insert_bitmask (H : Nat → Nat) (s : MichaelHashSet) (v : Val) :
    (insert H s v).1.m_nHashBitmask = s.m_nHashBitmask := by
  simp only [insert]
  split <;> rfl

lemma keyIn_insert (H : Nat → Nat) (s : MichaelHashSet) (v : Val)
    (hInv : Inv H s) : KeyIn H (insert H s v).1 v.key := by
  have hi := hash_lt H s v.key hInv.1
  obtain ⟨w, hw, hk⟩ := bucket_insert_keyMem v (getBucket s (hash_value H s v.key))
  refine ⟨w, ?_, hk⟩
  have hh : hash_value H (insert H s v).1 v.key = hash_value H s v.key := by
    simp [hash_value, insert_bitmask]
  rw [hh]
  show w ∈ (insert H s v).1.m_Buckets.getD (hash_value H s v.key) []
  rw [insert_buckets, getD_set_self _ _ _ _ hi]
  exact hw

lemma mem_toList_iff_keyBucket (H : Nat → Nat) (s : MichaelHashSet) (k : Nat)
    (hInv : Inv H s) :
    (∃ w ∈ toList s, w.key = k) ↔ ∃ w ∈ getBucket s (hash_value H s k), w.key = k := by
  constructor
  · rintro ⟨w, hw, hk⟩
    obtain ⟨b, hb, hwb⟩ := List.mem_flatten.1 hw
    obtain ⟨j, hj, hjb⟩ := mem_getD s.m_Buckets [] b hb
    have hpl := hInv.2.2.2 j hj w (hjb ▸ hwb)
    refine ⟨w, ?_, hk⟩
    rw [← hk] at *
    rw [show hash_value H s w.key = j from hpl] at *
    show w ∈ s.m_Buckets.getD j []
    rw [hjb]
    exact hwb
  · rintro ⟨w, hw, hk⟩
    have hi := hash_lt H s k hInv.1
    refine ⟨w, ?_, hk⟩
    exact List.mem_flatten.2 ⟨_, getD_mem s.m_Buckets _ [] hi, hw⟩

lemma ensure_buckets (H : Nat → Nat) (s : MichaelHashSet) (v : Val)
    (f : Bool → Nat → Nat) :
    (ensure H s v f).1.m_Buckets
      = s.m_Buckets.set (hash_value H s v.key)
          (bucket_ensure v f (getBucket s (hash_value H s v.key))).1 := by
  simp only [ensure]
  split <;> rfl

lemma ensure_bitmask (H : Nat → Nat) (s : MichaelHashSet) (v : Val)
    (f : Bool → Nat → Nat) :
    (ensure H s v f).1.m_nHashBitmask = s.m_nHashBitmask := by
  simp only [ensure]
  split <;> rfl

lemma erase_buckets (H : Nat → Nat) (s : MichaelHashSet) (k : Nat) :
    (erase H s k).1.m_Buckets
      = s.m_Buckets.set (hash_value H s k)
          (bucket_erase k (getBucket s (hash_value H s k))).1 := by
  simp only [erase]
  split <;> rfl

lemma erase_bitmask (H : Nat → Nat) (s : MichaelHashSet) (k : Nat) :
    (erase H s k).1.m_nHashBitmask = s.m_nHashBitmask := by
  simp only [erase]
  split <;> rfl

lemma erase_with_buckets (H : Nat → Nat) (s : MichaelHashSet)
    (pred : Nat → Nat → Bool) (k : Nat) :
    (erase_with H s pred k).1.m_Buckets
      = s.m_Buckets.set (hash_value H s k)
          (bucket_erase_with pred k (getBucket s (hash_value H s k))).1 := by
  simp only [erase_with]
  split <;> rfl

lemma erase_with_bitmask (H : Nat → Nat) (s : MichaelHashSet)
    (pred : Nat → Nat → Bool) (k : Nat) :
    (erase_with H s pred k).1.m_nHashBitmask = s.m_nHashBitmask := by
  simp only [erase_with]
  split <;> rfl

lemma extract_buckets (H : Nat → Nat) (s : MichaelHashSet) (k : Nat) :
    (extract H s k).1.m_Buckets
      = s.m_Buckets.set (hash_value H s k)
          (bucket_extract k (getBucket s (hash_value H s k))).1 := by
  simp only [extract]
  split <;> rfl

lemma extract_bitmask (H : Nat → Nat) (s : MichaelHashSet) (k : Nat) :
    (extract H s k).1.m_nHashBitmask = s.m_nHashBitmask := by
  simp only [extract]
  split <;> rfl

lemma extract_with_buckets (H : Nat → Nat) (s : MichaelHashSet)
    (pred : Nat → Nat → Bool) (k : Nat) :
    (extract_with H s pred k).1.m_Buckets
      = s.m_Buckets.set (hash_value H s k)
          (bucket_extract_with pred k (getBucket s (hash_value H s k))).1 := by
  simp only [extract_with]
  split <;> rfl

lemma extract_with_bitmask (H : Nat → Nat) (s : MichaelHashSet)
    (pred : Nat → Nat → Bool) (k : Nat) :
    (extract_with H s pred k).1.m_nHashBitmask = s.m_nHashBitmask := by
  simp only [extract_with]
  split <;> rfl

lemma keyIn_of_update (H : Nat → Nat) (s s' : MichaelHashSet) (k i : Nat)
    (b' : Bucket) (hbk : s'.m_Buckets = s.m_Buckets.set i b')
    (hmask : s'.m_nHashBitmask = s.m_nHashBitmask)
    (hi : i < s.m_Buckets.length)
    (hpres : ∀ u ∈ s.m_Buckets.getD i [], u.key = k → ∃ u' ∈ b', u'.key = k)
    (hk : KeyIn H s k) : KeyIn H s' k := by
  obtain ⟨w, hw, hwk⟩ := hk
  have hh : hash_value H s' k = hash_value H s k := by
    simp [hash_value, hmask]
  by_cases hij : i = hash_value H s k
  · subst hij
    obtain ⟨u', hu', hu'k⟩ := hpres w hw hwk
    refine ⟨u', ?_, hu'k⟩
    show u' ∈ s'.m_Buckets.getD (hash_value H s' k) []
    rw [hh, hbk, getD_set_self _ _ _ _ hi]
    exact hu'
  · refine ⟨w, ?_, hwk⟩
    show w ∈ s'.m_Buckets.getD (hash_value H s' k) []
    rw [hh, hbk, getD_set_ne _ _ _ hij]
    exact hw

lemma keyIn_step (H : Nat → Nat) (s : MichaelHashSet) (k : Nat) (op : Op)
    (hInv : Inv H s) (hop : opPreservesKey k op) (hk : KeyIn H s k) :
    KeyIn H (step H s op) k := by
  cases op with
  | insert v =>
    refine keyIn_of_update H s _ k (hash_value H s v.key) _
      (insert_buckets H s v) (insert_bitmask H s v)
      (hash_lt H s v.key hInv.1) ?_ hk
    intro u hu huk
    exact ⟨u, bucket_insert_subset v _ hu, huk⟩
  | emplace v =>
    refine keyIn_of_update H s _ k (hash_value H s v.key) _
      (insert_buckets H s v) (insert_bitmask H s v)
      (hash_lt H s v.key hInv.1) ?_ hk
    intro u hu huk
    exact ⟨u, bucket_insert_subset v _ hu, huk⟩
  | ensure v f =>
    refine keyIn_of_update H s _ k (hash_value H s v.key) _
      (ensure_buckets H s v f) (ensure_bitmask H s v f)
      (hash_lt H s v.key hInv.1) ?_ hk
    intro u hu huk
    rcases bucket_ensure_keyMem_preserved v f _ u hu with h' | h'
    · obtain ⟨w', hw', hw'k⟩ := bucket_ensure_keyMem_self v f
        (getBucket s (hash_value H s v.key))
      exact ⟨w', hw', by rw [hw'k, ← h', huk]⟩
    · exact ⟨u, h', huk⟩
  | erase k' =>
    refine keyIn_of_update H s _ k (hash_value H s k') _
      (erase_buckets H s k') (erase_bitmask H s k')
      (hash_lt H s k' hInv.1) ?_ hk
    intro u hu huk
    exact ⟨u, bucket_erase_mem_of_ne k' _ u hu (by rw [huk]; exact fun h => hop h.symm),
      huk⟩
  | erase_with pred k' =>
    refine keyIn_of_update H s _ k (hash_value H s k') _
      (erase_with_buckets H s pred k') (erase_with_bitmask H s pred k')
      (hash_lt H s k' hInv.1) ?_ hk
    intro u hu huk
    rw [bucket_erase_with_eq_erase pred hop.1 k']
    exact ⟨u, bucket_erase_mem_of_ne k' _ u hu
      (by rw [huk]; exact fun h => hop.2 h.symm), huk⟩
  | extract k' =>
    refine keyIn_of_update H s _ k (hash_value H s k') _
      (extract_buckets H s k') (extract_bitmask H s k')
      (hash_lt H s k' hInv.1) ?_ hk
    intro u hu huk
    rw [(bucket_extract_eq_erase k' (getBucket s (hash_value H s k'))).1]
    exact ⟨u, bucket_erase_mem_of_ne k' _ u hu
      (by rw [huk]; exact fun h => hop h.symm), huk⟩
  | extract_with pred k' =>
    refine keyIn_of_update H s _ k (hash_value H s k') _
      (extract_with_buckets H s pred k') (extract_with_bitmask H s pred k')
      (hash_lt H s k' hInv.1) ?_ hk
    intro u hu huk
    rw [(bucket_extract_with_eq_erase_with pred k'
      (getBucket s (hash_value H s k'))).1]
    rw [bucket_erase_with_eq_erase pred hop.1 k']
    exact ⟨u, bucket_erase_mem_of_ne k' _ u hu
      (by rw [huk]; exact fun h => hop.2 h.symm), huk⟩
  | clear => exact absurd hop (by simp [opPreservesKey])
  | find k' => exact hk
  | find_with pred k' => exact hk
  | get k' => exact hk
  | get_with pred k' => exact hk

lemma keyIn_run (H : Nat → Nat) (s : MichaelHashSet) (k : Nat) (ops : List Op)
    (hInv : Inv H s) (hops : ∀ op ∈ ops, opPreservesKey k op)
    (hk : KeyIn H s k) : KeyIn H (run H s ops) k := by
  induction ops generalizing s with
  | nil => exact hk
  | cons op ops ih =>
    exact ih _ (inv_step H s op hInv)
      (fun o ho => hops o (List.mem_cons_of_mem _ ho))
      (keyIn_step H s k op hInv (hops op (List.mem_cons_self _ _)) hk)

lemma find_of_keyIn (H : Nat → Nat) (s : MichaelHashSet) (k : Nat)
    (hInv : Inv H s) (hk : KeyIn H s k) : find H s k = true := by
  have hi := hash_lt H s k hInv.1
  have hsortb := hInv.2.2.1 _ (getD_mem s.m_Buckets (hash_value H s k) [] hi)
  show bucket_find k (s.m_Buckets.getD (hash_value H s k) []) = true
  rw [bucket_find_iff k _ hsortb]
  exact hk

/-! ### Table-size lemmas -/

lemma findTableSize_le (nMax nLf : Nat) :
    ∀ fuel M, M ≤ findTableSize nMax nLf M fuel := by
  intro fuel
  induction fuel with
  | zero => intro M; exact Nat.le_refl M
  | succ fuel ih =>
    intro M
    by_cases hc : nMax ≤ M * nLf
    · simp [findTableSize, hc]
    · calc M ≤ 2 * M := by omega
        _ ≤ findTableSize nMax nLf (2 * M) fuel := ih (2 * M)
        _ = findTableSize nMax nLf M (fuel + 1) := by simp [findTableSize, hc]

lemma findTableSize_pow2 (nMax nLf : Nat) :
    ∀ fuel e, ∃ d, e ≤ d ∧ findTableSize nMax nLf (2 ^ e) fuel = 2 ^ d := by
  intro fuel
  induction fuel with
  | zero => intro e; exact ⟨e, Nat.le_refl e, rfl⟩
  | succ fuel ih =>
    intro e
    by_cases hc : nMax ≤ 2 ^ e * nLf
    · exact ⟨e, Nat.le_refl e, by simp [findTableSize, hc]⟩
    · obtain ⟨d, hd, heq⟩ := ih (e + 1)
      refine ⟨d, by omega, ?_⟩
      rw [show (2 : Nat) ^ (e + 1) = 2 * 2 ^ e by ring] at heq
      simp [findTableSize, hc, heq]

lemma findTableSize_cond (nMax nLf : Nat) :
    ∀ fuel M, nMax ≤ M * 2 ^ fuel * nLf →
      nMax ≤ (findTableSize nMax nLf M fuel) * nLf := by
  intro fuel
  induction fuel with
  | zero =>
    intro M hM
    simpa [findTableSize] using hM
  | succ fuel ih =>
    intro M hM
    by_cases hc : nMax ≤ M * nLf
    · simp only [findTableSize, hc, if_true]
    · have hM' : nMax ≤ (2 * M) * 2 ^ fuel * nLf := by
        have : (2 * M) * 2 ^ fuel * nLf = M * 2 ^ (fuel + 1) * nLf := by ring
        rw [this]
        exact hM
      have := ih (2 * M) hM'
      simpa [findTableSize, hc] using this

lemma findTableSize_min (nMax nLf : Nat) :
    ∀ fuel e c, e ≤ c → c < e + fuel → nMax ≤ 2 ^ c * nLf →
      findTableSize nMax nLf (2 ^ e) fuel ≤ 2 ^ c := by
  intro fuel
  induction fuel with
  | zero =>
    intro e c h1 h2
    omega
  | succ fuel ih =>
    intro e c h1 h2 h3
    by_cases hc : nMax ≤ 2 ^ e * nLf
    · simp only [findTableSize, hc, if_true]
      exact Nat.pow_le_pow_right (by omega) h1
    · have hec : e ≠ c := by
        intro heq
        exact hc (heq ▸ h3)
      have h1' : e + 1 ≤ c := by omega
      have h2' : c < (e + 1) + fuel := by omega
      have := ih (e + 1) c h1' h2' h3
      rw [show (2 : Nat) ^ (e + 1) = 2 * 2 ^ e by ring] at this
      simpa [findTableSize, hc] using this

/-! ### Result-delegation lemmas -/

lemma insert_snd (H : Nat → Nat) (s : MichaelHashSet) (v : Val) :
    (insert H s v).2 = (bucket_insert v (getBucket s (hash_value H s v.key))).2 := by
  cases hr : (bucket_insert v (getBucket s (hash_value H s v.key))).2 with
  | true => simp [insert, hr]
  | false => simp [insert, hr]

lemma emplace_snd (H : Nat → Nat) (s : MichaelHashSet) (v : Val) :
    (emplace H s v).2
      = (bucket_emplace v (getBucket s (hash_value H s v.key))).2 :=
  insert_snd H s v

lemma ensure_snd (H : Nat → Nat) (s : MichaelHashSet) (v : Val)
    (f : Bool → Nat → Nat) :
    (ensure H s v f).2
      = (bucket_ensure v f (getBucket s (hash_value H s v.key))).2 := by
  simp only [ensure]
  split <;> rfl

lemma erase_snd (H : Nat → Nat) (s : MichaelHashSet) (k : Nat) :
    (erase H s k).2 = (bucket_erase k (getBucket s (hash_value H s k))).2 := by
  cases hr : (bucket_erase k (getBucket s (hash_value H s k))).2 with
  | true => simp [erase, hr]
  | false => simp [erase, hr]

lemma erase_with_snd (H : Nat → Nat) (s : MichaelHashSet)
    (pred : Nat → Nat → Bool) (k : Nat) :
    (erase_with H s pred k).2
      = (bucket_erase_with pred k (getBucket s (hash_value H s k))).2 := by
  cases hr : (bucket_erase_with pred k (getBucket s (hash_value H s k))).2 with
  | true => simp [erase_with, hr]
  | false => simp [erase_with, hr]

lemma extract_snd (H : Nat → Nat) (s : MichaelHashSet) (k : Nat) :
    (extract H s k).2 = (bucket_extract k (getBucket s (hash_value H s k))).2 := by
  cases hr : (bucket_extract k (getBucket s (hash_value H s k))).2 with
  | some v => simp [extract, hr]
  | none => simp [extract, hr]

lemma extract_with_snd (H : Nat → Nat) (s : MichaelHashSet)
    (pred : Nat → Nat → Bool) (k : Nat) :
    (extract_with H s pred k).2
      = (bucket_extract_with pred k (getBucket s (hash_value H s k))).2 := by
  cases hr : (bucket_extract_with pred k (getBucket s (hash_value H s k))).2 with
  | some v => simp [extract_with, hr]
  | none => simp [extract_with, hr]

lemma size_ensure_cases (H : Nat → Nat) (s : MichaelHashSet) (v : Val)
    (f : Bool → Nat → Nat) :
    size (ensure H s v f).1
      = if ((bucket_ensure v f (getBucket s (hash_value H s v.key))).2.1 &&
            (bucket_ensure v f (getBucket s (hash_value H s v.key))).2.2) = true
        then size s + 1 else size s := by
  cases hb : ((bucket_ensure v f (getBucket s (hash_value H s v.key))).2.1 &&
      (bucket_ensure v f (getBucket s (hash_value H s v.key))).2.2) with
  | true => simp [ensure, hb, size]
  | false => simp [ensure, hb, size, setBucket]

lemma clear_mem_nil (s : MichaelHashSet)
    (hlen : s.m_Buckets.length = s.m_nHashBitmask + 1) :
    ∀ b ∈ (clear s).m_Buckets, b = [] := by
  intro b hb
  obtain ⟨j, hj, hjb⟩ := mem_getD (clear s).m_Buckets [] b hb
  rw [clear_buckets_getD] at hjb
  rw [clear_buckets_length] at hj
  rw [if_pos (by simp only [bucket_count]; omega)] at hjb
  exact hjb.symm

/-! ### Claim theorems -/

/-- C5: once mutations quiesce (here: after any sequential sequence of facade
operations run from a freshly constructed set), `size()` returns exactly the
number of elements reachable by full iteration, and `empty()` returns `true`
exactly when that number is zero. -/
theorem size_eq_iteration (H : Nat → Nat) (nMax nLf : Nat) (s0 : MichaelHashSet)
    (h : mkMichaelHashSet false nMax nLf = Except.ok s0) (ops : List Op) :
    size (run H s0 ops) = (toList (run H s0 ops)).length ∧
    (empty (run H s0 ops) = true ↔ (toList (run H s0 ops)).length = 0) := by
  have hInv := inv_run H s0 ops (inv_mk H false nMax nLf s0 h)
  have hsz : size (run H s0 ops) = (toList (run H s0 ops)).length := by
    rw [size, toList_length]
    exact hInv.2.1
  refine ⟨hsz, ?_⟩
  rw [empty, ← hsz]
  simp [size]

/-- Witness for C5 at a concrete construction and operation sequence. -/
theorem size_eq_iteration_witness :
    mkMichaelHashSet false 2 1 = Except.ok ⟨0, [[], []], 1⟩ ∧
    size (run (fun k => k) ⟨0, [[], []], 1⟩ [Op.insert ⟨5, 0⟩, Op.insert ⟨3, 1⟩,
        Op.erase 5])
      = (toList (run (fun k => k) ⟨0, [[], []], 1⟩ [Op.insert ⟨5, 0⟩,
          Op.insert ⟨3, 1⟩, Op.erase 5])).length :=
  ⟨by rfl, (size_eq_iteration (fun k => k) 2 1 ⟨0, [[], []], 1⟩ (by rfl)
    [Op.insert ⟨5, 0⟩, Op.insert ⟨3, 1⟩, Op.erase 5]).1⟩

/-- C6: in a sequential execution, `insert(v)` followed by any operations that
do not erase, extract or clear `key(v)` leaves `find(key(v))` returning
`true`. -/
theorem insert_then_find (H : Nat → Nat) (s : MichaelHashSet) (v : Val)
    (ops : List Op) (hInv : Inv H s)
    (hops : ∀ op ∈ ops, opPreservesKey v.key op) :
    find H (run H (insert H s v).1 ops) v.key = true := by
  have hInv' := inv_insert H s v hInv
  have hkey := keyIn_insert H s v hInv
  have hrun := keyIn_run H (insert H s v).1 v.key ops hInv' hops hkey
  exact find_of_keyIn H _ v.key (inv_run H _ ops hInv') hrun

/-- Witness for C6: insert 5, then insert another key and erase a different
key; find 5 still succeeds. -/
theorem insert_then_find_witness :
    Inv (fun k => k) ⟨0, [[], []], 1⟩ ∧
    (∀ op ∈ [Op.insert ⟨3, 1⟩, Op.erase 4, Op.find 9],
      opPreservesKey (5 : Nat) op) ∧
    find (fun k => k)
      (run (fun k => k) (insert (fun k => k) ⟨0, [[], []], 1⟩ ⟨5, 0⟩).1
        [Op.insert ⟨3, 1⟩, Op.erase 4, Op.find 9]) 5 = true := by
  refine ⟨by decide, ?_, ?_⟩
  · intro op hop
    fin_cases hop <;> simp [opPreservesKey]
  · exact insert_then_find (fun k => k) ⟨0, [[], []], 1⟩ ⟨5, 0⟩
      [Op.insert ⟨3, 1⟩, Op.erase 4, Op.find 9] (by decide)
      (by intro op hop; fin_cases hop <;> simp [opPreservesKey])

/-- C7: with a less-predicate inducing the same order as the comparator,
`erase_with(k, pred)` returns the same boolean and leaves the set (buckets
and item counter) in the same state as `erase(k)`. -/
theorem erase_with_refines_erase (H : Nat → Nat) (s : MichaelHashSet)
    (pred : Nat → Nat → Bool) (k : Nat)
    (hpred : ∀ a b : Nat, pred a b = true ↔ a < b) :
    erase_with H s pred k = erase H s k := by
  simp only [erase_with, erase, bucket_erase_with_eq_erase pred hpred k]

/-- Witness for C7 at a concrete state and predicate. -/
theorem erase_with_refines_erase_witness :
    (∀ a b : Nat, (fun a b : Nat => decide (a < b)) a b = true ↔ a < b) ∧
    erase_with (fun k => k) ⟨2, [[⟨2, 0⟩], [⟨5, 1⟩]], 1⟩
        (fun a b : Nat => decide (a < b)) 5
      = erase (fun k => k) ⟨2, [[⟨2, 0⟩], [⟨5, 1⟩]], 1⟩ 5 :=
  ⟨fun a b => by simp,
    erase_with_refines_erase (fun k => k) ⟨2, [[⟨2, 0⟩], [⟨5, 1⟩]], 1⟩
      (fun a b : Nat => decide (a < b)) 5 (fun a b => by simp)⟩

/-- C8: `clear()` applies the single-threaded bucket clear to all
`bucket_count()` buckets in index order; afterwards iteration yields no
elements and `size()` is `0`. -/
theorem clear_spec (H : Nat → Nat) (s : MichaelHashSet) (hInv : Inv H s) :
    toList (clear s) = [] ∧ size (clear s) = 0 ∧
    ∀ i < bucket_count s, getBucket (clear s) i = bucket_clear (getBucket s i) := by
  refine ⟨?_, rfl, ?_⟩
  · rw [toList, List.flatten_eq_nil_iff]
    exact clear_mem_nil s hInv.1
  · intro i hi
    show (clear s).m_Buckets.getD i [] = bucket_clear (getBucket s i)
    rw [clear_buckets_getD, if_pos hi]
    rfl

/-- Witness for C8 on a populated concrete set. -/
theorem clear_spec_witness :
    Inv (fun k => k) ⟨2, [[⟨2, 0⟩], [⟨5, 1⟩]], 1⟩ ∧
    toList (clear ⟨2, [[⟨2, 0⟩], [⟨5, 1⟩]], 1⟩) = [] :=
  ⟨by decide,
    (clear_spec (fun k => k) ⟨2, [[⟨2, 0⟩], [⟨5, 1⟩]], 1⟩ (by decide)).1⟩

/-- C9: configuring the set with the no-op item counter
(`atomicity::empty_item_counter`) is rejected at construction, while a real
counter constructs successfully. -/
theorem empty_counter_rejected (nMax nLf : Nat) :
    (∃ msg, mkMichaelHashSet true nMax nLf = Except.error msg) ∧
    ∃ s0, mkMichaelHashSet false nMax nLf = Except.ok s0 :=
  ⟨⟨"atomicity::empty_item_counter is not allowed as a item counter", rfl⟩,
    ⟨_, rfl⟩⟩

/-- C1: each successful `insert`/`emplace` adds exactly one to the item
counter, each successful `erase`/`erase_with`/`extract`/`extract_with`
removes exactly one, unsuccessful calls leave it unchanged, and two inserts
of equal-key values on a set not yet holding that key produce exactly one
increment in total. -/
theorem counter_discipline (H : Nat → Nat) (s : MichaelHashSet)
    (v v1 v2 : Val) (k : Nat) (pred : Nat → Nat → Bool) (hInv : Inv H s) :
    ((insert H s v).2 = true → size (insert H s v).1 = size s + 1) ∧
    ((insert H s v).2 = false → size (insert H s v).1 = size s) ∧
    ((emplace H s v).2 = true → size (emplace H s v).1 = size s + 1) ∧
    ((emplace H s v).2 = false → size (emplace H s v).1 = size s) ∧
    ((erase H s k).2 = true → size (erase H s k).1 + 1 = size s) ∧
    ((erase H s k).2 = false → size (erase H s k).1 = size s) ∧
    ((erase_with H s pred k).2 = true →
      size (erase_with H s pred k).1 + 1 = size s) ∧
    ((erase_with H s pred k).2 = false →
      size (erase_with H s pred k).1 = size s) ∧
    ((extract H s k).2.isSome = true → size (extract H s k).1 + 1 = size s) ∧
    ((extract H s k).2 = none → size (extract H s k).1 = size s) ∧
    ((extract_with H s pred k).2.isSome = true →
      size (extract_with H s pred k).1 + 1 = size s) ∧
    ((extract_with H s pred k).2 = none →
      size (extract_with H s pred k).1 = size s) ∧
    (v1.key = v2.key → find H s v1.key = false →
      size (insert H (insert H s v1).1 v2).1 = size s + 1) := by
  refine ⟨size_insert_true H s v, size_insert_false H s v,
    size_emplace_true H s v, size_emplace_false H s v,
    size_erase_true H s k hInv, size_erase_false H s k,
    size_erase_with_true H s pred k hInv, size_erase_with_false H s pred k,
    size_extract_some H s k hInv, size_extract_none H s k,
    size_extract_with_some H s pred k hInv, size_extract_with_none H s pred k,
    ?_⟩
  intro hkey hfind
  have hi := hash_lt H s v1.key hInv.1
  have hsortb := hInv.2.2.1 _ (getD_mem s.m_Buckets (hash_value H s v1.key) [] hi)
  have hnokey : ∀ w ∈ getBucket s (hash_value H s v1.key), w.key ≠ v1.key := by
    intro w hw hwk
    have : bucket_find v1.key (getBucket s (hash_value H s v1.key)) = true :=
      (bucket_find_iff v1.key _ hsortb).2 ⟨w, hw, hwk⟩
    rw [find] at hfind
    rw [hfind] at this
    cases this
  have h1 : (insert H s v1).2 = true := by
    rw [insert_snd]
    exact (bucket_insert_true_iff v1 _ hsortb).2 hnokey
  have hs1 : size (insert H s v1).1 = size s + 1 := size_insert_true H s v1 h1
  set s1 := (insert H s v1).1 with hs1def
  have hh1 : hash_value H s1 v2.key = hash_value H s v1.key := by
    simp [hash_value, hs1def, insert_bitmask, hkey]
  have hb1 : getBucket s1 (hash_value H s1 v2.key)
      = (bucket_insert v1 (getBucket s (hash_value H s v1.key))).1 := by
    rw [hh1]
    show s1.m_Buckets.getD (hash_value H s v1.key) [] = _
    rw [hs1def, insert_buckets, getD_set_self _ _ _ _ hi]
  have h2 : (insert H s1 v2).2 = false := by
    rw [insert_snd, hb1]
    obtain ⟨w, hw, hwk⟩ :=
      bucket_insert_keyMem v1 (getBucket s (hash_value H s v1.key))
    have hsort1 := bucket_insert_sorted v1 _ hsortb
    cases hr : (bucket_insert v2
        (bucket_insert v1 (getBucket s (hash_value H s v1.key))).1).2 with
    | false => rfl
    | true =>
      have := (bucket_insert_true_iff v2 _ hsort1).1 hr w hw
      rw [hwk, hkey] at this
      exact absurd rfl this
  have hs2 : size (insert H s1 v2).1 = size s1 := size_insert_false H s1 v2 h2
  rw [hs2, hs1]

/-- Witness for C1: on a two-bucket set, a successful insert adds one. -/
theorem counter_discipline_witness :
    Inv (fun k => k) ⟨0, [[], []], 1⟩ ∧
    ((insert (fun k => k) ⟨0, [[], []], 1⟩ ⟨1, 0⟩).2 = true →
      size (insert (fun k => k) ⟨0, [[], []], 1⟩ ⟨1, 0⟩).1
        = size ⟨0, [[], []], 1⟩ + 1) ∧
    ((⟨2, 0⟩ : Val).key = (⟨2, 5⟩ : Val).key →
      find (fun k => k) ⟨0, [[], []], 1⟩ (⟨2, 0⟩ : Val).key = false →
      size (insert (fun k => k)
        (insert (fun k => k) ⟨0, [[], []], 1⟩ ⟨2, 0⟩).1 ⟨2, 5⟩).1
        = size ⟨0, [[], []], 1⟩ + 1) := by
  have h := counter_discipline (fun k => k) ⟨0, [[], []], 1⟩ ⟨1, 0⟩ ⟨2, 0⟩ ⟨2, 5⟩ 3
    (fun a b => decide (a < b)) (by decide)
  exact ⟨by decide, h.1, h.2.2.2.2.2.2.2.2.2.2.2.2⟩

/-- C2: `ensure(v, f)` returns the pair reported by the bucket, increments the
counter exactly when the bucket reports a new insertion, and on an existing
key calls the functor with `bNew = false` on the existing item, leaving the
counter unchanged. -/
theorem ensure_spec (H : Nat → Nat) (s : MichaelHashSet) (v : Val)
    (f : Bool → Nat → Nat) (hInv : Inv H s) :
    (ensure H s v f).2
        = (bucket_ensure v f (getBucket s (hash_value H s v.key))).2 ∧
    ((ensure H s v f).2.2 = true → size (ensure H s v f).1 = size s + 1) ∧
    ((ensure H s v f).2.2 = false → size (ensure H s v f).1 = size s) ∧
    ((∃ w ∈ toList s, w.key = v.key) →
      (ensure H s v f).2 = (true, false) ∧
      size (ensure H s v f).1 = size s ∧
      ∃ l1 w l2, getBucket s (hash_value H s v.key) = l1 ++ w :: l2 ∧
        w.key = v.key ∧
        getBucket (ensure H s v f).1 (hash_value H s v.key)
          = l1 ++ ⟨w.key, f false w.payload⟩ :: l2) := by
  have hi := hash_lt H s v.key hInv.1
  have hsortb := hInv.2.2.1 _ (getD_mem s.m_Buckets (hash_value H s v.key) [] hi)
  have hfst := bucket_ensure_fst_true v f (getBucket s (hash_value H s v.key))
  have hsnd := ensure_snd H s v f
  have hsz := size_ensure_cases H s v f
  refine ⟨hsnd, ?_, ?_, ?_⟩
  · intro h2
    rw [hsnd] at h2
    rw [hsz, if_pos (by rw [hfst, h2]; rfl)]
  · intro h2
    rw [hsnd] at h2
    rw [hsz, if_neg (by rw [hfst, h2]; simp)]
  · intro hmem
    have hbmem := (mem_toList_iff_keyBucket H s v.key hInv).1 hmem
    obtain ⟨l1, w, l2, heq, hwk, hres, hpair⟩ :=
      bucket_ensure_found v f (getBucket s (hash_value H s v.key)) hsortb hbmem
    refine ⟨by rw [hsnd, hpair], ?_, l1, w, l2, heq, hwk, ?_⟩
    · rw [hsz, if_neg (by rw [hpair]; simp)]
    · show (ensure H s v f).1.m_Buckets.getD (hash_value H s v.key) [] = _
      rw [ensure_buckets, getD_set_self _ _ _ _ hi, hres]

/-- Witness for C2: ensuring a key already present leaves the counter at its
old value and rewrites the stored payload through the functor. -/
theorem ensure_spec_witness :
    Inv (fun k => k) ⟨2, [[⟨2, 0⟩], [⟨5, 1⟩]], 1⟩ ∧
    ((∃ w ∈ toList ⟨2, [[⟨2, 0⟩], [⟨5, 1⟩]], 1⟩, w.key = (⟨5, 9⟩ : Val).key) →
      (ensure (fun k => k) ⟨2, [[⟨2, 0⟩], [⟨5, 1⟩]], 1⟩ ⟨5, 9⟩
          (fun _ p => p + 100)).2 = (true, false) ∧
      size (ensure (fun k => k) ⟨2, [[⟨2, 0⟩], [⟨5, 1⟩]], 1⟩ ⟨5, 9⟩
          (fun _ p => p + 100)).1 = size ⟨2, [[⟨2, 0⟩], [⟨5, 1⟩]], 1⟩ ∧
      ∃ l1 w l2,
        getBucket ⟨2, [[⟨2, 0⟩], [⟨5, 1⟩]], 1⟩
            (hash_value (fun k => k) ⟨2, [[⟨2, 0⟩], [⟨5, 1⟩]], 1⟩
              (⟨5, 9⟩ : Val).key)
          = l1 ++ w :: l2 ∧
        w.key = (⟨5, 9⟩ : Val).key ∧
        getBucket (ensure (fun k => k) ⟨2, [[⟨2, 0⟩], [⟨5, 1⟩]], 1⟩ ⟨5, 9⟩
            (fun _ p => p + 100)).1
            (hash_value (fun k => k) ⟨2, [[⟨2, 0⟩], [⟨5, 1⟩]], 1⟩
              (⟨5, 9⟩ : Val).key)
          = l1 ++ ⟨w.key, (fun _ p => p + 100) false w.payload⟩ :: l2) :=
  ⟨by decide,
    (ensure_spec (fun k => k) ⟨2, [[⟨2, 0⟩], [⟨5, 1⟩]], 1⟩ ⟨5, 9⟩
      (fun _ p => p + 100) (by decide)).2.2.2⟩

/-- C3: construction from an expected maximum item count and a positive load
factor yields `bucket_count()` equal to the smallest power of two `M` with
`M * load_factor ≥ expected_max`; the value is at least `1` and no facade
operation ever changes it. -/
theorem bucket_count_spec (H : Nat → Nat) (nMax nLf : Nat) (s0 : MichaelHashSet)
    (hlf : 0 < nLf) (h : mkMichaelHashSet false nMax nLf = Except.ok s0) :
    (∃ j, bucket_count s0 = 2 ^ j) ∧
    1 ≤ bucket_count s0 ∧
    nMax ≤ bucket_count s0 * nLf ∧
    (∀ M', (∃ j, M' = 2 ^ j) → nMax ≤ M' * nLf → bucket_count s0 ≤ M') ∧
    (∀ ops, bucket_count (run H s0 ops) = bucket_count s0) := by
  simp only [mkMichaelHashSet, Bool.false_eq_true, if_false, Except.ok.injEq] at h
  subst h
  have hT1 : 1 ≤ findTableSize nMax nLf 1 (nMax + 1) := findTableSize_le nMax nLf _ 1
  have hbc : bucket_count
      { m_ItemCounter := 0,
        m_Buckets := List.replicate (init_hash_bitmask nMax nLf + 1) [],
        m_nHashBitmask := init_hash_bitmask nMax nLf }
      = findTableSize nMax nLf 1 (nMax + 1) := by
    simp only [bucket_count, init_hash_bitmask]
    omega
  have hmax2 : nMax ≤ 2 ^ nMax * nLf := by
    have h1 : nMax < 2 ^ nMax := Nat.lt_two_pow nMax
    calc nMax ≤ 2 ^ nMax := by omega
      _ = 2 ^ nMax * 1 := by ring
      _ ≤ 2 ^ nMax * nLf := Nat.mul_le_mul_left _ hlf
  refine ⟨?_, ?_, ?_, ?_, ?_⟩
  · obtain ⟨d, _, hd⟩ := findTableSize_pow2 nMax nLf (nMax + 1) 0
    rw [pow_zero] at hd
    exact ⟨d, by rw [hbc, hd]⟩
  · rw [hbc]
    exact hT1
  · rw [hbc]
    refine findTableSize_cond nMax nLf (nMax + 1) 1 ?_
    have h1 : nMax < 2 ^ nMax := Nat.lt_two_pow nMax
    have h2 : (2 : Nat) ^ nMax ≤ 2 ^ (nMax + 1) :=
      Nat.pow_le_pow_right (by omega) (by omega)
    calc nMax ≤ 2 ^ (nMax + 1) := by omega
      _ = 1 * 2 ^ (nMax + 1) * 1 := by ring
      _ ≤ 1 * 2 ^ (nMax + 1) * nLf := Nat.mul_le_mul_left _ hlf
  · rintro M' ⟨c, hc⟩ hM'
    subst hc
    rw [hbc]
    by_cases hcnm : c ≤ nMax
    · have := findTableSize_min nMax nLf (nMax + 1) 0 c (Nat.zero_le c)
        (by omega) hM'
      rwa [pow_zero] at this
    · have hle : findTableSize nMax nLf 1 (nMax + 1) ≤ 2 ^ nMax := by
        have := findTableSize_min nMax nLf (nMax + 1) 0 nMax (Nat.zero_le nMax)
          (by omega) hmax2
        rwa [pow_zero] at this
      have h2 : (2 : Nat) ^ nMax ≤ 2 ^ c :=
        Nat.pow_le_pow_right (by omega) (by omega)
      omega
  · intro ops
    simp only [bucket_count, run_bitmask]

/-- Witness for C3: expected max 10 with load factor 2 yields 8 buckets. -/
theorem bucket_count_spec_witness :
    0 < 2 ∧
    mkMichaelHashSet false 10 2
      = Except.ok ⟨0, List.replicate 8 [], 7⟩ ∧
    10 ≤ bucket_count ⟨0, List.replicate 8 [], 7⟩ * 2 :=
  ⟨by decide, by rfl,
    (bucket_count_spec (fun k => k) 10 2 ⟨0, List.replicate 8 [], 7⟩ (by decide)
      (by rfl)).2.2.1⟩

/-- C10: `get(k)` returns `none` exactly when no element with key `k` is in
the set, otherwise it returns a matching element of the set, and the call
leaves the state unchanged. -/
theorem get_spec (H : Nat → Nat) (s : MichaelHashSet) (k : Nat)
    (hInv : Inv H s) :
    (get H s k = none ↔ ∀ w ∈ toList s, w.key ≠ k) ∧
    (∀ v, get H s k = some v → v.key = k ∧ v ∈ toList s) ∧
    step H s (Op.get k) = s := by
  have hi := hash_lt H s k hInv.1
  have hsortb := hInv.2.2.1 _ (getD_mem s.m_Buckets (hash_value H s k) [] hi)
  refine ⟨?_, ?_, rfl⟩
  · show bucket_get k (s.m_Buckets.getD (hash_value H s k) []) = none ↔ _
    rw [bucket_get_none_iff k _ hsortb]
    constructor
    · intro hall w hw hwk
      have hb := (mem_toList_iff_keyBucket H s k hInv).1 ⟨w, hw, hwk⟩
      obtain ⟨u, hu, huk⟩ := hb
      exact hall u hu huk
    · intro hall w hw hwk
      have := (mem_toList_iff_keyBucket H s k hInv).2 ⟨w, hw, hwk⟩
      obtain ⟨u, hu, huk⟩ := this
      exact hall u hu huk
  · intro v hv
    obtain ⟨hvk, hvb⟩ := bucket_get_some k _ v hv
    refine ⟨hvk, ?_⟩
    exact List.mem_flatten.2 ⟨_, getD_mem s.m_Buckets _ [] hi, hvb⟩

/-- Witness for C10: a present key is returned, an absent key gives `none`. -/
theorem get_spec_witness :
    Inv (fun k => k) ⟨2, [[⟨2, 0⟩], [⟨5, 1⟩]], 1⟩ ∧
    (get (fun k => k) ⟨2, [[⟨2, 0⟩], [⟨5, 1⟩]], 1⟩ 7 = none ↔
      ∀ w ∈ toList ⟨2, [[⟨2, 0⟩], [⟨5, 1⟩]], 1⟩, w.key ≠ 7) :=
  ⟨by decide,
    (get_spec (fun k => k) ⟨2, [[⟨2, 0⟩], [⟨5, 1⟩]], 1⟩ 7 (by decide)).1⟩

/-- C4: every facade operation is dispatched to the bucket at index
`H(key) & (M-1)`, which equals `H(key) mod M` because `M` is a power of two;
equal keys always reach the same bucket, and mutating operations touch no
other bucket. -/
theorem bucket_dispatch (H : Nat → Nat) (s : MichaelHashSet) (v : Val)
    (f : Bool → Nat → Nat) (k : Nat) (pred : Nat → Nat → Bool)
    (hpow : ∃ j, bucket_count s = 2 ^ j) :
    (∀ k', hash_value H s k' = H k' % bucket_count s) ∧
    (∀ k1 k2, k1 = k2 → hash_value H s k1 = hash_value H s k2) ∧
    (insert H s v).2 = (bucket_insert v (getBucket s (hash_value H s v.key))).2 ∧
    (∀ j, j ≠ hash_value H s v.key →
      getBucket (insert H s v).1 j = getBucket s j) ∧
    (ensure H s v f).2
      = (bucket_ensure v f (getBucket s (hash_value H s v.key))).2 ∧
    (∀ j, j ≠ hash_value H s v.key →
      getBucket (ensure H s v f).1 j = getBucket s j) ∧
    (emplace H s v).2
      = (bucket_emplace v (getBucket s (hash_value H s v.key))).2 ∧
    (∀ j, j ≠ hash_value H s v.key →
      getBucket (emplace H s v).1 j = getBucket s j) ∧
    (erase H s k).2 = (bucket_erase k (getBucket s (hash_value H s k))).2 ∧
    (∀ j, j ≠ hash_value H s k → getBucket (erase H s k).1 j = getBucket s j) ∧
    (erase_with H s pred k).2
      = (bucket_erase_with pred k (getBucket s (hash_value H s k))).2 ∧
    (∀ j, j ≠ hash_value H s k →
      getBucket (erase_with H s pred k).1 j = getBucket s j) ∧
    (extract H s k).2 = (bucket_extract k (getBucket s (hash_value H s k))).2 ∧
    (∀ j, j ≠ hash_value H s k → getBucket (extract H s k).1 j = getBucket s j) ∧
    (extract_with H s pred k).2
      = (bucket_extract_with pred k (getBucket s (hash_value H s k))).2 ∧
    (∀ j, j ≠ hash_value H s k →
      getBucket (extract_with H s pred k).1 j = getBucket s j) ∧
    find H s k = bucket_find k (getBucket s (hash_value H s k)) ∧
    find_with H s pred k = bucket_find_with pred k (getBucket s (hash_value H s k)) ∧
    get H s k = bucket_get k (getBucket s (hash_value H s k)) ∧
    get_with H s pred k = bucket_get_with pred k (getBucket s (hash_value H s k)) := by
  obtain ⟨j0, hj0⟩ := hpow
  have hmask : s.m_nHashBitmask = 2 ^ j0 - 1 := by
    simp only [bucket_count] at hj0
    omega
  refine ⟨?_, ?_, insert_snd H s v, ?_, ensure_snd H s v f, ?_,
    emplace_snd H s v, ?_, erase_snd H s k, ?_, erase_with_snd H s pred k, ?_,
    extract_snd H s k, ?_, extract_with_snd H s pred k, ?_, rfl, rfl, rfl, rfl⟩
  · intro k'
    rw [hash_value, hmask, and_two_pow_sub_one, hj0]
  · intro k1 k2 hk
    rw [hk]
  · intro j hj
    show (insert H s v).1.m_Buckets.getD j [] = s.m_Buckets.getD j []
    rw [insert_buckets, getD_set_ne _ _ _ (fun h => hj h.symm)]
  · intro j hj
    show (ensure H s v f).1.m_Buckets.getD j [] = s.m_Buckets.getD j []
    rw [ensure_buckets, getD_set_ne _ _ _ (fun h => hj h.symm)]
  · intro j hj
    show (emplace H s v).1.m_Buckets.getD j [] = s.m_Buckets.getD j []
    rw [show (emplace H s v).1 = (insert H s v).1 from rfl, insert_buckets,
      getD_set_ne _ _ _ (fun h => hj h.symm)]
  · intro j hj
    show (erase H s k).1.m_Buckets.getD j [] = s.m_Buckets.getD j []
    rw [erase_buckets, getD_set_ne _ _ _ (fun h => hj h.symm)]
  · intro j hj
    show (erase_with H s pred k).1.m_Buckets.getD j [] = s.m_Buckets.getD j []
    rw [erase_with_buckets, getD_set_ne _ _ _ (fun h => hj h.symm)]
  · intro j hj
    show (extract H s k).1.m_Buckets.getD j [] = s.m_Buckets.getD j []
    rw [extract_buckets, getD_set_ne _ _ _ (fun h => hj h.symm)]
  · intro j hj
    show (extract_with H s pred k).1.m_Buckets.getD j [] = s.m_Buckets.getD j []
    rw [extract_with_buckets, getD_set_ne _ _ _ (fun h => hj h.symm)]

/-- Witness for C4: on a 2-bucket set the masked hash equals the hash
modulo the bucket count. -/
theorem bucket_dispatch_witness :
    (∃ j, bucket_count ⟨0, [[], []], 1⟩ = 2 ^ j) ∧
    (∀ k', hash_value (fun k => k + 3) ⟨0, [[], []], 1⟩ k'
      = (fun k => k + 3) k' % bucket_count ⟨0, [[], []], 1⟩) :=
  ⟨⟨1, by decide⟩,
    (bucket_dispatch (fun k => k + 3) ⟨0, [[], []], 1⟩ ⟨1, 0⟩
      (fun _ p => p) 4 (fun a b => decide (a < b)) ⟨1, by decide⟩).1⟩

end MichaelSetRCU
